import Mathlib

/-!
# Verification of the rusty-gossip state-merge protocol

Shallow embedding of the merge function (`src/sync.rs`, `sync_state`) and the
broadcast-round reconciliation (`src/heartbeat.rs`, `sync_received_states`)
of the rusty-gossip repository, together with proofs settling the frozen
claims about the natural-language specification.

`u64` values are modelled as `Nat`; the one place where 64-bit overflow is
observable (`heartbeat + alive_duration`) is additionally modelled by a
checked variant `sync_state_checked` that returns `none` exactly when the
Rust addition would overflow (a panic under the default, overflow-checking
build profile).
-/

namespace RustyGossip

/-- Mirrors `PeerState` from `src/common.rs`. -/
structure PeerState where
  id : String
  version : Nat
  heartbeat : Nat
  payload : Option String
  updated : Option Bool
deriving DecidableEq, Repr

/-- Mirrors `NetworkState` from `src/common.rs`. -/
structure NetworkState where
  sender : String
  peers : List PeerState
deriving DecidableEq, Repr

/-- Replace the first element satisfying `p` by its image under `g`;
models `iter_mut().find(p)` followed by an in-place mutation `g`. -/
def replaceFirst (p : PeerState → Bool) (g : PeerState → PeerState) :
    List PeerState → List PeerState
  | [] => []
  | x :: xs => if p x then g x :: xs else x :: replaceFirst p g xs

/-- The `Some(ri)` branch of the match in `sync_state` (src/sync.rs lines
19-56): how a foreign entry `fi` updates the matching local entry `ri`.
In the Rust, the sender branch first assigns `ri.heartbeat = now` and then
compares versions; the version fields are untouched by that assignment, so
the flattened conditional below is the same function. -/
def updateMatched (fsender : String) (now : Nat) (fi ri : PeerState) : PeerState :=
  if fsender == ri.id then
    if fi.version > ri.version then
      { ri with heartbeat := now, version := fi.version, payload := fi.payload,
                updated := some true }
    else
      { ri with heartbeat := now }
  else if fi.version > ri.version then
    if fi.heartbeat > ri.heartbeat then
      { ri with version := fi.version, heartbeat := fi.heartbeat,
                payload := fi.payload, updated := some true }
    else ri
  else if fi.version == ri.version then
    if fi.heartbeat > ri.heartbeat then { ri with heartbeat := fi.heartbeat } else ri
  else ri

/-- One iteration of the Phase-A loop of `sync_state` (src/sync.rs lines
10-88): process one foreign entry `fi` against the current recipient peer
list. -/
def syncOneP (fsender : String) (alive now : Nat)
    (ps : List PeerState) (fi : PeerState) : List PeerState :=
  match ps.find? (fun ti => fi.id == ti.id) with
  | some _ => replaceFirst (fun ti => fi.id == ti.id) (updateMatched fsender now fi) ps
  | none =>
    if fi.id == fsender then
      ps ++ [{ fi with updated := some true }]
    else if now ≤ fi.heartbeat + alive then
      ps ++ [{ fi with version := 0, payload := none, updated := some true }]
    else
      ps

/-- Phase A of `sync_state`: the `for fi in &foreign_state.peers` loop. -/
def phaseA (fsender : String) (alive now : Nat)
    (ps : List PeerState) (fis : List PeerState) : List PeerState :=
  fis.foldl (syncOneP fsender alive now) ps

/-- The mutation performed inside `retain_mut` (src/sync.rs lines 92-96):
the recipient's own entry gets `heartbeat = now` and is marked updated. -/
def selfRefresh (sender : String) (now : Nat) (e : PeerState) : PeerState :=
  if e.id == sender then { e with heartbeat := now, updated := some true } else e

/-- The retain decision of `retain_mut` (src/sync.rs lines 98-112):
keep entries marked `Some(true)`; all others only if still alive. -/
def keepPeer (alive now : Nat) (e : PeerState) : Bool :=
  match e.updated with
  | some true => true
  | some false => decide (now ≤ e.heartbeat + alive)
  | none => decide (now ≤ e.heartbeat + alive)

/-- Phase B of `sync_state`: `retain_mut` mutates each element and then
decides retention, which is per-element, hence map-then-filter. -/
def phaseB (sender : String) (alive now : Nat) (ps : List PeerState) : List PeerState :=
  (ps.map (selfRefresh sender now)).filter (keepPeer alive now)

/-- Phase C of `sync_state` (src/sync.rs lines 116-118): clear the flag. -/
def clearFlag (e : PeerState) : PeerState := { e with updated := none }

/-- Phase C applied to the whole list. -/
def clearFlags (ps : List PeerState) : List PeerState := ps.map clearFlag

/-- `sync_state` from src/sync.rs: merge a foreign `NetworkState` into the
recipient one. The recipient's `sender` field is never written. -/
def sync_state (foreign recipient : NetworkState) (alive now : Nat) : NetworkState :=
  { sender := recipient.sender
    peers := clearFlags (phaseB recipient.sender alive now
      (phaseA foreign.sender alive now recipient.peers foreign.peers)) }

/-- The first loop of `sync_received_states` (src/heartbeat.rs lines
191-196): merge every `Some` reply into the recipient state, in order. -/
def mergeReplies (foreign_states : List (String × Option NetworkState))
    (recipient : NetworkState) (alive now : Nat) : NetworkState :=
  foreign_states.foldl
    (fun st item =>
      match item.2 with
      | some peer_state => sync_state peer_state st alive now
      | none => st) recipient

/-- The second loop of `sync_received_states` (src/heartbeat.rs lines
198-208): for every `None` reply, retain only the entries with a
different id. -/
def dropNoReply (foreign_states : List (String × Option NetworkState))
    (st : NetworkState) : NetworkState :=
  foreign_states.foldl
    (fun st item =>
      match item.2 with
      | some _ => st
      | none => { st with peers := st.peers.filter (fun e => !(e.id == item.1)) })
    st

/-- `sync_received_states` from src/heartbeat.rs (lines 185-209): first
merge every `Some` reply, then remove the ids of every `None` reply.  The
Rust iterates a `HashMap` twice in an unspecified but fixed order; the
model takes the entries as a list, covering every such order. -/
def sync_received_states (foreign_states : List (String × Option NetworkState))
    (recipient : NetworkState) (alive now : Nat) : NetworkState :=
  dropNoReply foreign_states (mergeReplies foreign_states recipient alive now)

/-- The ids of a peer list. -/
def idsOf (ps : List PeerState) : List String := ps.map PeerState.id

/-- All entries of `ps` whose id is `i`, in order. -/
def collect (i : String) : List PeerState → List PeerState
  | [] => []
  | x :: xs => if i == x.id then x :: collect i xs else collect i xs

/-- Equality of peer entries up to the transient `updated` flag. -/
def peerEqExceptUpdated (p q : PeerState) : Prop :=
  p.id = q.id ∧ p.version = q.version ∧ p.heartbeat = q.heartbeat ∧ p.payload = q.payload

/-- Pointwise equality of peer lists up to the `updated` flags. -/
def peersEqExceptUpdated : List PeerState → List PeerState → Prop
  | [], [] => True
  | p :: ps, q :: qs => peerEqExceptUpdated p q ∧ peersEqExceptUpdated ps qs
  | _, _ => False

/-! The merge's two `heartbeat + alive_duration` sums are the only
arithmetic in `sync_state` that can leave the u64 range.  The checked
variant below mirrors `sync_state` exactly but performs those additions
with `addU64`, so that `none` marks the input where the Rust addition
overflows — a panic ("attempt to add with overflow") under the default,
overflow-checking build profile. -/

/-- The largest u64 value, 2^64 - 1. -/
def u64Max : Nat := 2 ^ 64 - 1

/-- Checked u64 addition: `none` models the arithmetic fault. -/
def addU64 (x y : Nat) : Option Nat :=
  if x + y ≤ u64Max then some (x + y) else none

/-- `syncOneP` with the checked addition at src/sync.rs line 74. -/
def syncOnePChecked (fsender : String) (alive now : Nat)
    (ps : Option (List PeerState)) (fi : PeerState) : Option (List PeerState) :=
  match ps with
  | none => none
  | some ps =>
    match ps.find? (fun ti => fi.id == ti.id) with
    | some _ =>
      some (replaceFirst (fun ti => fi.id == ti.id) (updateMatched fsender now fi) ps)
    | none =>
      if fi.id == fsender then
        some (ps ++ [{ fi with updated := some true }])
      else
        match addU64 fi.heartbeat alive with
        | none => none
        | some s =>
          if now ≤ s then
            some (ps ++ [{ fi with version := 0, payload := none, updated := some true }])
          else
            some ps

/-- The retain decision with the checked additions of src/sync.rs lines
101 and 108 (they are reached only when the flag is not `Some(true)`). -/
def keepPeerChecked (alive now : Nat) (e : PeerState) : Option Bool :=
  match e.updated with
  | some true => some true
  | _ =>
    match addU64 e.heartbeat alive with
    | none => none
    | some s => some (decide (now ≤ s))

/-- Phase B with checked arithmetic; `retain_mut` visits entries in order
and the first faulting element aborts the merge. -/
def phaseBChecked (sender : String) (alive now : Nat) : List PeerState → Option (List PeerState)
  | [] => some []
  | e :: es =>
    match keepPeerChecked alive now (selfRefresh sender now e) with
    | none => none
    | some b =>
      match phaseBChecked sender alive now es with
      | none => none
      | some rest =>
        some (if b then selfRefresh sender now e :: rest else rest)

/-- `sync_state` with checked u64 arithmetic: `none` exactly when the Rust
merge hits a u64 overflow on `heartbeat + alive_duration`. -/
def sync_state_checked (foreign recipient : NetworkState) (alive now : Nat) :
    Option NetworkState :=
  match foreign.peers.foldl (syncOnePChecked foreign.sender alive now)
      (some recipient.peers) with
  | none => none
  | some p1 =>
    match phaseBChecked recipient.sender alive now p1 with
    | none => none
    | some p2 => some { sender := recipient.sender, peers := clearFlags p2 }

/-! Sanity checks: the embedding reproduces the repository's own unit tests
(`test_sync_init`, `test_sync_full`, `test_sync_add_from_foreign`,
`test_sync_in_favour_of_foreign`, `test_sync_delete_not_updated` in
src/sync.rs, `test_sync_received_states` in src/heartbeat.rs). -/

example :
    let foreign : NetworkState :=
      ⟨"sender", [⟨"sender", 1, 10, some "Senders message", none⟩]⟩
    let recipient : NetworkState :=
      ⟨"recipient", [⟨"recipient", 2, 1, some "Recepients message", none⟩]⟩
    let r := sync_state foreign recipient 2 12
    r.peers.length = 2 ∧ (r.peers.map PeerState.id) = ["recipient", "sender"] := by
  decide

example :
    let foreign : NetworkState :=
      ⟨"sender", [⟨"sender", 1, 10, none, none⟩, ⟨"peer3", 4, 10, none, none⟩,
                  ⟨"peer4", 4, 8, none, none⟩]⟩
    let recipient : NetworkState := ⟨"recipient", [⟨"recipient", 1, 1, none, none⟩]⟩
    let r := sync_state foreign recipient 2 12
    r.peers.length = 3 ∧ (r.peers.map PeerState.id) = ["recipient", "sender", "peer3"] := by
  decide

example :
    let foreign : NetworkState :=
      ⟨"sender", [⟨"recipient", 1, 10, none, none⟩, ⟨"sender", 2, 10, none, none⟩,
                  ⟨"peer3", 3, 10, none, none⟩]⟩
    let recipient : NetworkState :=
      ⟨"recipient", [⟨"recipient", 1, 1, none, none⟩, ⟨"sender", 1, 10, none, none⟩]⟩
    let r := sync_state foreign recipient 2 11
    r.peers.length = 3 ∧ (r.peers.map PeerState.version) = [1, 2, 0] := by
  decide

example :
    let foreign : NetworkState :=
      ⟨"sender", [⟨"recipient", 1, 10, none, none⟩, ⟨"sender", 2, 10, none, none⟩]⟩
    let recipient : NetworkState :=
      ⟨"recipient", [⟨"recipient", 1, 1, none, none⟩, ⟨"sender", 1, 10, none, none⟩,
                     ⟨"peer3", 3, 10, none, none⟩, ⟨"peer4", 4, 7, none, none⟩,
                     ⟨"peer5", 5, 10, none, none⟩, ⟨"peer6", 5, 8, none, none⟩]⟩
    let r := sync_state foreign recipient 2 11
    r.peers.length = 4 ∧ (r.peers.map PeerState.id) = ["recipient", "sender", "peer3", "peer5"] := by
  decide

/-! ### Helper lemmas: ids and the entries carrying a given id -/

theorem mem_collect {i : String} {ps : List PeerState} {x : PeerState} :
    x ∈ collect i ps ↔ x ∈ ps ∧ x.id = i := by
  induction ps with
  | nil => simp [collect]
  | cons y ys ih =>
    by_cases hp : (i == y.id) = true
    · have hpy : y.id = i := (beq_iff_eq.mp hp).symm
      simp only [collect, if_pos hp, List.mem_cons, ih]
      constructor
      · rintro (h | ⟨h1, h2⟩)
        · exact ⟨Or.inl h, h ▸ hpy⟩
        · exact ⟨Or.inr h1, h2⟩
      · rintro ⟨h | h, h2⟩
        · exact Or.inl h
        · exact Or.inr ⟨h, h2⟩
    · have hpy : ¬ y.id = i := fun he => hp (beq_iff_eq.mpr he.symm)
      simp only [collect, if_neg hp, List.mem_cons, ih]
      constructor
      · rintro ⟨h1, h2⟩
        exact ⟨Or.inr h1, h2⟩
      · rintro ⟨h | h, h2⟩
        · exact absurd (h ▸ h2) hpy
        · exact ⟨h, h2⟩

theorem mem_idsOf {i : String} {ps : List PeerState} :
    i ∈ idsOf ps ↔ ∃ x ∈ ps, x.id = i := by
  simp [idsOf]

theorem collect_eq_nil {i : String} {ps : List PeerState} :
    collect i ps = [] ↔ ∀ x ∈ ps, x.id ≠ i := by
  induction ps with
  | nil => simp [collect]
  | cons y ys ih =>
    by_cases hp : (i == y.id) = true
    · have hpy : y.id = i := (beq_iff_eq.mp hp).symm
      simp only [collect, if_pos hp]
      constructor
      · intro h
        exact absurd h (List.cons_ne_nil _ _)
      · intro h
        exact absurd hpy (h y (List.mem_cons_self y ys))
    · have hpy : ¬ y.id = i := fun he => hp (beq_iff_eq.mpr he.symm)
      simp only [collect, if_neg hp, ih]
      constructor
      · intro h x hx
        rcases List.mem_cons.mp hx with h1 | h1
        · exact h1 ▸ hpy
        · exact h x h1
      · intro h x hx
        exact h x (List.mem_cons_of_mem y hx)

theorem collect_append {i : String} {ps qs : List PeerState} :
    collect i (ps ++ qs) = collect i ps ++ collect i qs := by
  induction ps with
  | nil => rfl
  | cons y ys ih =>
    rw [List.cons_append]
    by_cases hp : (i == y.id) = true
    · rw [collect, if_pos hp, collect, if_pos hp, ih, List.cons_append]
    · rw [collect, if_neg hp, collect, if_neg hp, ih]

theorem collect_singleton_of_nodup {i : String} {ps : List PeerState} {x : PeerState}
    (hnd : (idsOf ps).Nodup) (hx : x ∈ ps) (hi : x.id = i) :
    collect i ps = [x] := by
  induction ps with
  | nil => cases hx
  | cons y ys ih =>
    have hnd' : (y.id :: idsOf ys).Nodup := hnd
    have hyn : y.id ∉ idsOf ys := (List.nodup_cons.mp hnd').1
    have hndys : (idsOf ys).Nodup := (List.nodup_cons.mp hnd').2
    rcases List.mem_cons.mp hx with hx1 | hx1
    · have hp : (i == y.id) = true := beq_iff_eq.mpr (by rw [← hi, hx1])
      have hys : collect i ys = [] := by
        apply collect_eq_nil.mpr
        intro z hz hzi
        apply hyn
        apply mem_idsOf.mpr
        exact ⟨z, hz, by rw [hzi, ← hi, hx1]⟩
      simp only [collect, if_pos hp, hys, hx1]
    · have hp : ¬ (i == y.id) = true := by
        intro hp
        apply hyn
        apply mem_idsOf.mpr
        exact ⟨x, hx1, by rw [hi, beq_iff_eq.mp hp]⟩
      simp only [collect, if_neg hp]
      exact ih hndys hx1

/-! ### Lemmas about `replaceFirst` -/

theorem replaceFirst_eq_self {p : PeerState → Bool} {g : PeerState → PeerState}
    {ps : List PeerState} (h : ∀ x ∈ ps, p x = true → g x = x) :
    replaceFirst p g ps = ps := by
  induction ps with
  | nil => rfl
  | cons x xs ih =>
    by_cases hp : p x = true
    · simp only [replaceFirst, if_pos hp, h x (List.mem_cons_self x xs) hp]
    · simp only [replaceFirst, if_neg hp]
      rw [ih fun y hy hpy => h y (List.mem_cons_of_mem x hy) hpy]

theorem mem_replaceFirst {p : PeerState → Bool} {g : PeerState → PeerState}
    {ps : List PeerState} {y : PeerState} (hy : y ∈ replaceFirst p g ps) :
    ∃ x ∈ ps, y = x ∨ y = g x := by
  induction ps with
  | nil => cases hy
  | cons x xs ih =>
    by_cases hp : p x = true
    · rw [replaceFirst, if_pos hp] at hy
      rcases List.mem_cons.mp hy with hy1 | hy1
      · exact ⟨x, List.mem_cons_self x xs, Or.inr hy1⟩
      · exact ⟨y, List.mem_cons_of_mem x hy1, Or.inl rfl⟩
    · rw [replaceFirst, if_neg hp] at hy
      rcases List.mem_cons.mp hy with hy1 | hy1
      · exact ⟨x, List.mem_cons_self x xs, Or.inl hy1⟩
      · rcases ih hy1 with ⟨z, hz, hzy⟩
        exact ⟨z, List.mem_cons_of_mem x hz, hzy⟩

theorem idsOf_replaceFirst {p : PeerState → Bool} {g : PeerState → PeerState}
    {ps : List PeerState} (hg : ∀ x, (g x).id = x.id) :
    idsOf (replaceFirst p g ps) = idsOf ps := by
  induction ps with
  | nil => rfl
  | cons x xs ih =>
    by_cases hp : p x = true
    · simp only [replaceFirst, if_pos hp, idsOf, List.map_cons, hg x]
    · simp only [replaceFirst, if_neg hp, idsOf, List.map_cons] at ih ⊢
      rw [ih]

theorem collect_replaceFirst_ne {i : String} {p : PeerState → Bool}
    {g : PeerState → PeerState} {ps : List PeerState}
    (hpq : ∀ x, p x = true → ¬ x.id = i) (hg : ∀ x, (g x).id = x.id) :
    collect i (replaceFirst p g ps) = collect i ps := by
  induction ps with
  | nil => rfl
  | cons x xs ih =>
    by_cases hp : p x = true
    · have hxi : ¬ (i == x.id) = true := fun h => hpq x hp (beq_iff_eq.mp h).symm
      have hgi : ¬ (i == (g x).id) = true := by
        rw [hg x]
        exact hxi
      rw [replaceFirst, if_pos hp]
      simp only [collect, if_neg hxi, if_neg hgi]
    · rw [replaceFirst, if_neg hp]
      by_cases hxi : (i == x.id) = true
      · simp only [collect, if_pos hxi, ih]
      · simp only [collect, if_neg hxi, ih]

theorem collect_replaceFirst_self {i : String} {g : PeerState → PeerState}
    {ps : List PeerState} (hg : ∀ x, (g x).id = x.id) :
    collect i (replaceFirst (fun ti => i == ti.id) g ps) =
      match collect i ps with
      | [] => []
      | r :: rest => g r :: rest := by
  induction ps with
  | nil => rfl
  | cons x xs ih =>
    by_cases hp : (i == x.id) = true
    · have hgp : (i == (g x).id) = true := by
        rw [hg x]
        exact hp
      rw [replaceFirst, if_pos hp]
      simp only [collect, if_pos hp, if_pos hgp]
    · rw [replaceFirst, if_neg hp]
      simp only [collect, if_neg hp, ih]

/-! ### Lemmas about `updateMatched`, `selfRefresh`, `keepPeer`, `clearFlag` -/

theorem updateMatched_id (fs : String) (n : Nat) (fi ri : PeerState) :
    (updateMatched fs n fi ri).id = ri.id := by
  unfold updateMatched
  split_ifs <;> rfl

theorem updateMatched_version_le (fs : String) (n : Nat) (fi ri : PeerState) :
    ri.version ≤ (updateMatched fs n fi ri).version := by
  unfold updateMatched
  split_ifs <;> simp <;> omega

theorem selfRefresh_id (s : String) (n : Nat) (e : PeerState) :
    (selfRefresh s n e).id = e.id := by
  unfold selfRefresh
  split_ifs <;> rfl

theorem selfRefresh_of_ne {s : String} {n : Nat} {e : PeerState} (h : ¬ e.id = s) :
    selfRefresh s n e = e := by
  unfold selfRefresh
  rw [if_neg (fun hb => h (beq_iff_eq.mp hb))]

theorem selfRefresh_of_eq {s : String} {n : Nat} {e : PeerState} (h : e.id = s) :
    selfRefresh s n e = { e with heartbeat := n, updated := some true } := by
  unfold selfRefresh
  rw [if_pos (beq_iff_eq.mpr h)]

theorem clearFlag_id (e : PeerState) : (clearFlag e).id = e.id := rfl

theorem keepPeer_iff {a n : Nat} {e : PeerState} :
    keepPeer a n e = true ↔ (e.updated = some true ∨ n ≤ e.heartbeat + a) := by
  unfold keepPeer
  cases h : e.updated with
  | none => simp
  | some b => cases b <;> simp

/-! ### Case laws for `syncOneP` -/

theorem syncOneP_matched {fs : String} {a n : Nat} {ps : List PeerState}
    {fi : PeerState} (h : collect fi.id ps ≠ []) :
    syncOneP fs a n ps fi =
      replaceFirst (fun ti => fi.id == ti.id) (updateMatched fs n fi) ps := by
  unfold syncOneP
  cases hf : ps.find? (fun ti => fi.id == ti.id) with
  | some r => rfl
  | none =>
    exfalso
    apply h
    apply collect_eq_nil.mpr
    intro x hx he
    exact (List.find?_eq_none.mp hf x hx) (beq_iff_eq.mpr he.symm)

theorem syncOneP_unmatched {fs : String} {a n : Nat} {ps : List PeerState}
    {fi : PeerState} (h : collect fi.id ps = []) :
    syncOneP fs a n ps fi =
      if fi.id == fs then ps ++ [{ fi with updated := some true }]
      else if n ≤ fi.heartbeat + a then
        ps ++ [{ fi with version := 0, payload := none, updated := some true }]
      else ps := by
  unfold syncOneP
  cases hf : ps.find? (fun ti => fi.id == ti.id) with
  | none => rfl
  | some r =>
    exfalso
    have hr : r ∈ ps := List.mem_of_find?_eq_some hf
    have hpr := List.find?_some hf
    have hpr' : (fi.id == r.id) = true := hpr
    exact (collect_eq_nil.mp h r hr) (beq_iff_eq.mp hpr').symm

theorem collect_singleton_of_ne {i : String} {x : PeerState} (h : ¬ x.id = i) :
    collect i [x] = [] := by
  have hb : ¬ (i == x.id) = true := fun hp => h (beq_iff_eq.mp hp).symm
  simp [collect, hb]

theorem collect_singleton_of_id {i : String} {x : PeerState} (h : x.id = i) :
    collect i [x] = [x] := by
  have hb : (i == x.id) = true := beq_iff_eq.mpr h.symm
  simp [collect, hb]

theorem collect_syncOneP_ne {fs : String} {a n : Nat} {ps : List PeerState}
    {fi : PeerState} {i : String} (hne : ¬ fi.id = i) :
    collect i (syncOneP fs a n ps fi) = collect i ps := by
  by_cases h : collect fi.id ps = []
  · have hib : ¬ (i == fi.id) = true := fun hp => hne (beq_iff_eq.mp hp).symm
    rw [syncOneP_unmatched h]
    split_ifs with h1 h2
    · rw [collect_append]
      simp [collect, hib]
    · rw [collect_append]
      simp [collect, hib]
    · rfl
  · rw [syncOneP_matched h]
    refine collect_replaceFirst_ne ?_ (updateMatched_id fs n fi)
    intro x hp hxi
    exact hne ((beq_iff_eq.mp hp) ▸ hxi)

theorem collect_syncOneP_self {fs : String} {a n : Nat} {ps : List PeerState}
    {fi : PeerState} :
    collect fi.id (syncOneP fs a n ps fi) =
      match collect fi.id ps with
      | [] =>
        if fi.id == fs then [{ fi with updated := some true }]
        else if n ≤ fi.heartbeat + a then
          [{ fi with version := 0, payload := none, updated := some true }]
        else []
      | r :: rest => updateMatched fs n fi r :: rest := by
  cases h : collect fi.id ps with
  | nil =>
    rw [syncOneP_unmatched h]
    split_ifs with h1 h2
    · rw [collect_append, h, List.nil_append]
      simp [collect]
    · rw [collect_append, h, List.nil_append]
      simp [collect]
    · exact h
  | cons r rest =>
    have hne : collect fi.id ps ≠ [] := by
      rw [h]
      exact List.cons_ne_nil r rest
    rw [syncOneP_matched hne, collect_replaceFirst_self (updateMatched_id fs n fi), h]

/-! ### `collect` against `phaseA`, `phaseB`, `clearFlags` -/

theorem phaseA_cons {fs : String} {a n : Nat} {ps : List PeerState}
    {fi : PeerState} {fis : List PeerState} :
    phaseA fs a n ps (fi :: fis) = phaseA fs a n (syncOneP fs a n ps fi) fis := rfl

theorem collect_phaseA_ne {fs : String} {a n : Nat} {fis : List PeerState}
    {i : String} (h : ∀ fj ∈ fis, ¬ fj.id = i) :
    ∀ {ps : List PeerState}, collect i (phaseA fs a n ps fis) = collect i ps := by
  induction fis with
  | nil => intro ps; rfl
  | cons fj rest ih =>
    intro ps
    rw [phaseA_cons, ih (fun z hz => h z (List.mem_cons_of_mem fj hz)),
        collect_syncOneP_ne (h fj (List.mem_cons_self fj rest))]

theorem collect_filter {i : String} {q : PeerState → Bool} {ps : List PeerState} :
    collect i (ps.filter q) = (collect i ps).filter q := by
  induction ps with
  | nil => rfl
  | cons x xs ih =>
    by_cases hq : q x = true
    · rw [List.filter_cons_of_pos hq]
      by_cases hp : (i == x.id) = true
      · rw [collect, if_pos hp, collect, if_pos hp, List.filter_cons_of_pos hq, ih]
      · rw [collect, if_neg hp, collect, if_neg hp, ih]
    · rw [List.filter_cons_of_neg hq]
      by_cases hp : (i == x.id) = true
      · rw [collect, if_pos hp, List.filter_cons_of_neg hq, ih]
      · rw [collect, if_neg hp, ih]

theorem collect_map_idpres {i : String} {f : PeerState → PeerState}
    (hf : ∀ x, (f x).id = x.id) {ps : List PeerState} :
    collect i (ps.map f) = (collect i ps).map f := by
  induction ps with
  | nil => rfl
  | cons x xs ih =>
    rw [List.map_cons]
    by_cases hp : (i == x.id) = true
    · have hp' : (i == (f x).id) = true := by rw [hf x]; exact hp
      rw [collect, if_pos hp', collect, if_pos hp, List.map_cons, ih]
    · have hp' : ¬ (i == (f x).id) = true := by rw [hf x]; exact hp
      rw [collect, if_neg hp', collect, if_neg hp, ih]

theorem collect_phaseB {s : String} {a n : Nat} {ps : List PeerState} {i : String} :
    collect i (phaseB s a n ps) =
      ((collect i ps).map (selfRefresh s n)).filter (keepPeer a n) := by
  unfold phaseB
  rw [collect_filter, collect_map_idpres (selfRefresh_id s n)]

theorem collect_clearFlags {i : String} {ps : List PeerState} :
    collect i (clearFlags ps) = (collect i ps).map clearFlag := by
  unfold clearFlags
  exact collect_map_idpres clearFlag_id

/-! ### ids through the phases -/

theorem idsOf_append {ps qs : List PeerState} :
    idsOf (ps ++ qs) = idsOf ps ++ idsOf qs := by
  simp [idsOf]

theorem mem_idsOf_iff_collect {i : String} {ps : List PeerState} :
    i ∈ idsOf ps ↔ collect i ps ≠ [] := by
  rw [mem_idsOf]
  constructor
  · rintro ⟨x, hx, he⟩ hnil
    exact (collect_eq_nil.mp hnil x hx) he
  · intro h
    cases hc : collect i ps with
    | nil => exact absurd hc h
    | cons r rest =>
      have hr : r ∈ collect i ps := by
        rw [hc]
        exact List.mem_cons_self r rest
      have := mem_collect.mp hr
      exact ⟨r, this.1, this.2⟩

theorem idsOf_syncOneP_mono {fs : String} {a n : Nat} {ps : List PeerState}
    {fi : PeerState} {i : String} (h : i ∈ idsOf ps) :
    i ∈ idsOf (syncOneP fs a n ps fi) := by
  rw [mem_idsOf_iff_collect] at h ⊢
  by_cases hne : fi.id = i
  · subst hne
    rw [collect_syncOneP_self]
    cases hc : collect fi.id ps with
    | nil => exact absurd hc h
    | cons r rest => simp
  · rw [collect_syncOneP_ne hne]
    exact h

theorem idsOf_syncOneP_nodup {fs : String} {a n : Nat} {ps : List PeerState}
    {fi : PeerState} (h : (idsOf ps).Nodup) :
    (idsOf (syncOneP fs a n ps fi)).Nodup := by
  by_cases hc : collect fi.id ps = []
  · have hfi : fi.id ∉ idsOf ps := by
      rw [mem_idsOf_iff_collect]
      intro hne
      exact hne hc
    rw [syncOneP_unmatched hc]
    split_ifs with h1 h2
    · rw [idsOf_append]
      refine List.Nodup.append h (List.nodup_singleton _) ?_
      intro b hb hbmem
      have : b = fi.id := by simpa [idsOf] using hbmem
      exact hfi (this ▸ hb)
    · rw [idsOf_append]
      refine List.Nodup.append h (List.nodup_singleton _) ?_
      intro b hb hbmem
      have : b = fi.id := by simpa [idsOf] using hbmem
      exact hfi (this ▸ hb)
    · exact h
  · rw [syncOneP_matched hc, idsOf_replaceFirst (updateMatched_id fs n fi)]
    exact h

theorem idsOf_phaseA_nodup {fs : String} {a n : Nat} {fis : List PeerState} :
    ∀ {ps : List PeerState}, (idsOf ps).Nodup → (idsOf (phaseA fs a n ps fis)).Nodup := by
  induction fis with
  | nil => intro ps h; exact h
  | cons fj rest ih =>
    intro ps h
    rw [phaseA_cons]
    exact ih (idsOf_syncOneP_nodup h)

theorem idsOf_phaseA_mono {fs : String} {a n : Nat} {fis : List PeerState} {i : String} :
    ∀ {ps : List PeerState}, i ∈ idsOf ps → i ∈ idsOf (phaseA fs a n ps fis) := by
  induction fis with
  | nil => intro ps h; exact h
  | cons fj rest ih =>
    intro ps h
    rw [phaseA_cons]
    exact ih (idsOf_syncOneP_mono h)

theorem mem_syncOneP {fs : String} {a n : Nat} {ps : List PeerState}
    {fi y : PeerState} (hy : y ∈ syncOneP fs a n ps fi) :
    (∃ x ∈ ps, y = x ∨ y = updateMatched fs n fi x) ∨
      y = { fi with updated := some true } ∨
      y = { fi with version := 0, payload := none, updated := some true } := by
  by_cases hc : collect fi.id ps = []
  · rw [syncOneP_unmatched hc] at hy
    split_ifs at hy with h1 h2
    · rcases List.mem_append.mp hy with h | h
      · exact Or.inl ⟨y, h, Or.inl rfl⟩
      · have : y = { fi with updated := some true } := by simpa using h
        exact Or.inr (Or.inl this)
    · rcases List.mem_append.mp hy with h | h
      · exact Or.inl ⟨y, h, Or.inl rfl⟩
      · have : y = { fi with version := 0, payload := none, updated := some true } := by
          simpa using h
        exact Or.inr (Or.inr this)
    · exact Or.inl ⟨y, hy, Or.inl rfl⟩
  · rw [syncOneP_matched hc] at hy
    exact Or.inl (mem_replaceFirst hy)

theorem replaceFirst_append {p : PeerState → Bool} {g : PeerState → PeerState}
    {pre post : List PeerState} {r : PeerState}
    (hpre : ∀ x ∈ pre, ¬ p x = true) (hr : p r = true) :
    replaceFirst p g (pre ++ r :: post) = pre ++ g r :: post := by
  induction pre with
  | nil =>
    rw [List.nil_append, replaceFirst, if_pos hr, List.nil_append]
  | cons x xs ih =>
    rw [List.cons_append, replaceFirst,
        if_neg (hpre x (List.mem_cons_self x xs)),
        ih fun z hz => hpre z (List.mem_cons_of_mem x hz), List.cons_append]

/-! ### Claim C1, C3, C4: the Phase-A case split of `sync_state` -/

/-- C1: in merge, when a foreign entry `fi` (with `fi.id ≠ foreign.sender`)
matches an existing local entry `r` (the first—and in a well-formed state
only—entry with that id), Phase A updates exactly that entry, gated as
follows: if `fi.version > r.version` and `fi.heartbeat > r.heartbeat`, `r`
adopts version, heartbeat and payload and is marked updated; else if
`fi.version = r.version` and `fi.heartbeat > r.heartbeat`, `r` adopts only
the heartbeat and is not marked; in every other case `r` is unchanged. -/
theorem syncOneP_third_party_gating
    (fs : String) (a n : Nat) (pre post : List PeerState) (fi r : PeerState)
    (hpre : ∀ x ∈ pre, ¬ x.id = fi.id) (hr : r.id = fi.id) (hns : ¬ fi.id = fs) :
    syncOneP fs a n (pre ++ r :: post) fi =
      pre ++
        (if fi.version > r.version ∧ fi.heartbeat > r.heartbeat then
          { r with version := fi.version, heartbeat := fi.heartbeat,
                   payload := fi.payload, updated := some true }
        else if fi.version = r.version ∧ fi.heartbeat > r.heartbeat then
          { r with heartbeat := fi.heartbeat }
        else r) :: post := by
  have hcol : collect fi.id (pre ++ r :: post) ≠ [] := by
    intro hnil
    exact (collect_eq_nil.mp hnil r (by simp)) hr
  have hrb : (fi.id == r.id) = true := beq_iff_eq.mpr hr.symm
  have hpreb : ∀ x ∈ pre, ¬ (fi.id == x.id) = true := by
    intro x hx hb
    exact hpre x hx (beq_iff_eq.mp hb).symm
  rw [syncOneP_matched hcol, replaceFirst_append hpreb hrb]
  have hsne : ¬ (fs == r.id) = true := by
    intro hb
    exact hns (hr ▸ (beq_iff_eq.mp hb).symm)
  have hupd : updateMatched fs n fi r =
      (if fi.version > r.version ∧ fi.heartbeat > r.heartbeat then
        { r with version := fi.version, heartbeat := fi.heartbeat,
                 payload := fi.payload, updated := some true }
      else if fi.version = r.version ∧ fi.heartbeat > r.heartbeat then
        { r with heartbeat := fi.heartbeat }
      else r) := by
    unfold updateMatched
    rw [if_neg hsne]
    simp only [beq_iff_eq]
    split_ifs <;> first | rfl | (exfalso; omega)
  rw [hupd]

/-- Witness for C1, exercising all three gates at concrete inputs
(spec scenarios 3 and 4). -/
theorem syncOneP_third_party_gating_witness :
    syncOneP "S" 2 11 [⟨"peer3", 2, 9, some "old", none⟩] ⟨"peer3", 3, 10, some "new", none⟩ =
      [⟨"peer3", 3, 10, some "new", some true⟩] ∧
    syncOneP "S" 2 11 [⟨"peer3", 2, 9, none, none⟩] ⟨"peer3", 3, 9, none, none⟩ =
      [⟨"peer3", 2, 9, none, none⟩] ∧
    syncOneP "S" 2 11 [⟨"peer3", 2, 9, none, none⟩] ⟨"peer3", 2, 10, none, none⟩ =
      [⟨"peer3", 2, 10, none, none⟩] := by
  refine ⟨?_, ?_, ?_⟩
  · have h := syncOneP_third_party_gating "S" 2 11 [] []
      ⟨"peer3", 3, 10, some "new", none⟩ ⟨"peer3", 2, 9, some "old", none⟩
      (by intro x hx; cases hx) rfl (by decide)
    exact h.trans (by decide)
  · have h := syncOneP_third_party_gating "S" 2 11 [] []
      ⟨"peer3", 3, 9, none, none⟩ ⟨"peer3", 2, 9, none, none⟩
      (by intro x hx; cases hx) rfl (by decide)
    exact h.trans (by decide)
  · have h := syncOneP_third_party_gating "S" 2 11 [] []
      ⟨"peer3", 2, 10, none, none⟩ ⟨"peer3", 2, 9, none, none⟩
      (by intro x hx; cases hx) rfl (by decide)
    exact h.trans (by decide)

/-- C4: in merge, when a foreign entry `fi` with `fi.id = foreign.sender`
matches an existing local entry `r`, Phase A sets `r.heartbeat` to `now`
unconditionally, and `r` adopts `fi`'s version and payload (and is marked
updated) if and only if `fi.version > r.version`; the heartbeat comparison
plays no role. -/
theorem syncOneP_sender_update
    (fs : String) (a n : Nat) (pre post : List PeerState) (fi r : PeerState)
    (hpre : ∀ x ∈ pre, ¬ x.id = fi.id) (hr : r.id = fi.id) (hs : fi.id = fs) :
    syncOneP fs a n (pre ++ r :: post) fi =
      pre ++
        (if fi.version > r.version then
          { r with heartbeat := n, version := fi.version, payload := fi.payload,
                   updated := some true }
        else { r with heartbeat := n }) :: post := by
  have hcol : collect fi.id (pre ++ r :: post) ≠ [] := by
    intro hnil
    exact (collect_eq_nil.mp hnil r (by simp)) hr
  have hrb : (fi.id == r.id) = true := beq_iff_eq.mpr hr.symm
  have hpreb : ∀ x ∈ pre, ¬ (fi.id == x.id) = true := by
    intro x hx hb
    exact hpre x hx (beq_iff_eq.mp hb).symm
  rw [syncOneP_matched hcol, replaceFirst_append hpreb hrb]
  have hse : (fs == r.id) = true := beq_iff_eq.mpr (by rw [hr, hs])
  have hupd : updateMatched fs n fi r =
      (if fi.version > r.version then
        { r with heartbeat := n, version := fi.version, payload := fi.payload,
                 updated := some true }
      else { r with heartbeat := n }) := by
    unfold updateMatched
    rw [if_pos hse]
  rw [hupd]

/-- Witness for C4: heartbeat is refreshed even when the version is not
higher (and adopted when it is). -/
theorem syncOneP_sender_update_witness :
    syncOneP "S" 2 12 [⟨"S", 3, 4, none, none⟩] ⟨"S", 1, 10, some "m", none⟩ =
      [⟨"S", 3, 12, none, none⟩] ∧
    syncOneP "S" 2 12 [⟨"S", 0, 4, none, none⟩] ⟨"S", 1, 10, some "m", none⟩ =
      [⟨"S", 1, 12, some "m", some true⟩] := by
  constructor
  · have h := syncOneP_sender_update "S" 2 12 [] []
      ⟨"S", 1, 10, some "m", none⟩ ⟨"S", 3, 4, none, none⟩
      (by intro x hx; cases hx) rfl rfl
    exact h.trans (by decide)
  · have h := syncOneP_sender_update "S" 2 12 [] []
      ⟨"S", 1, 10, some "m", none⟩ ⟨"S", 0, 4, none, none⟩
      (by intro x hx; cases hx) rfl rfl
    exact h.trans (by decide)

/-- C3: in merge, a foreign entry `fi` with no matching local entry is
inserted as a full clone (keeping version and payload) when `fi.id` is the
foreign sender; otherwise as a reset clone (same id and heartbeat, version
0, no payload) when `fi.heartbeat + alive_duration ≥ now`; otherwise it is
not inserted at all. -/
theorem syncOneP_unmatched_insertion
    (fs : String) (a n : Nat) (ps : List PeerState) (fi : PeerState)
    (h : ∀ x ∈ ps, ¬ x.id = fi.id) :
    syncOneP fs a n ps fi =
      if fi.id = fs then ps ++ [{ fi with updated := some true }]
      else if fi.heartbeat + a ≥ n then
        ps ++ [{ fi with version := 0, payload := none, updated := some true }]
      else ps := by
  rw [syncOneP_unmatched (collect_eq_nil.mpr h)]
  by_cases h1 : fi.id = fs
  · rw [if_pos (beq_iff_eq.mpr h1), if_pos h1]
  · rw [if_neg (fun hb => h1 (beq_iff_eq.mp hb)), if_neg h1]

/-- Witness for C3, exercising all three outcomes (spec scenario 2:
sender `S` inserted as clone, `peer3` as reset clone, `peer4` skipped). -/
theorem syncOneP_unmatched_insertion_witness :
    syncOneP "S" 2 12 [⟨"R", 1, 1, none, none⟩] ⟨"S", 1, 10, some "m", none⟩ =
      [⟨"R", 1, 1, none, none⟩, ⟨"S", 1, 10, some "m", some true⟩] ∧
    syncOneP "S" 2 12 [⟨"R", 1, 1, none, none⟩] ⟨"peer3", 4, 10, some "x", none⟩ =
      [⟨"R", 1, 1, none, none⟩, ⟨"peer3", 0, 10, none, some true⟩] ∧
    syncOneP "S" 2 12 [⟨"R", 1, 1, none, none⟩] ⟨"peer4", 4, 8, some "x", none⟩ =
      [⟨"R", 1, 1, none, none⟩] := by
  refine ⟨?_, ?_, ?_⟩
  · have h := syncOneP_unmatched_insertion "S" 2 12 [⟨"R", 1, 1, none, none⟩]
      ⟨"S", 1, 10, some "m", none⟩ (by decide)
    exact h.trans (by decide)
  · have h := syncOneP_unmatched_insertion "S" 2 12 [⟨"R", 1, 1, none, none⟩]
      ⟨"peer3", 4, 10, some "x", none⟩ (by decide)
    exact h.trans (by decide)
  · have h := syncOneP_unmatched_insertion "S" 2 12 [⟨"R", 1, 1, none, none⟩]
      ⟨"peer4", 4, 8, some "x", none⟩ (by decide)
    exact h.trans (by decide)

/-! ### Claim C2: the Phase-B retention policy -/

theorem mem_clearFlags {ps : List PeerState} {y : PeerState} :
    y ∈ clearFlags ps ↔ ∃ x ∈ ps, y = clearFlag x := by
  unfold clearFlags
  rw [List.mem_map]
  constructor
  · rintro ⟨x, hx, he⟩
    exact ⟨x, hx, he.symm⟩
  · rintro ⟨x, hx, he⟩
    exact ⟨x, hx, he.symm⟩

theorem mem_phaseB {s : String} {a n : Nat} {ps : List PeerState} {y : PeerState} :
    y ∈ phaseB s a n ps ↔
      ∃ x ∈ ps, y = selfRefresh s n x ∧ keepPeer a n (selfRefresh s n x) = true := by
  unfold phaseB
  rw [List.mem_filter, List.mem_map]
  constructor
  · rintro ⟨⟨x, hx, he⟩, hk⟩
    exact ⟨x, hx, he.symm, he ▸ hk⟩
  · rintro ⟨x, hx, he, hk⟩
    exact ⟨⟨x, hx, he.symm⟩, he ▸ hk⟩

/-- C2: after every merge, every result entry carrying the local sender's
id has heartbeat `now`; if the local state had a self-entry it is retained
(with heartbeat `now`); and an entry of the post-Phase-A state with a
different id survives into the result if and only if it was marked updated
during this merge or its heartbeat + alive_duration ≥ now.  The hypotheses
are spec invariants 1 and 5 for the pre-merge local state (unique ids, no
updated flag set). -/
theorem sync_state_retention
    (foreign recipient : NetworkState) (a n : Nat)
    (hnd : (idsOf recipient.peers).Nodup)
    (_hflags : ∀ e ∈ recipient.peers, e.updated = none) :
    ((∃ e ∈ recipient.peers, e.id = recipient.sender) →
      ∃ e2 ∈ (sync_state foreign recipient a n).peers,
        e2.id = recipient.sender ∧ e2.heartbeat = n) ∧
    (∀ e2 ∈ (sync_state foreign recipient a n).peers,
      e2.id = recipient.sender → e2.heartbeat = n) ∧
    (∀ e ∈ phaseA foreign.sender a n recipient.peers foreign.peers,
      ¬ e.id = recipient.sender →
      ((∃ e2 ∈ (sync_state foreign recipient a n).peers, e2.id = e.id) ↔
        (e.updated = some true ∨ n ≤ e.heartbeat + a))) := by
  have hres : (sync_state foreign recipient a n).peers =
      clearFlags (phaseB recipient.sender a n
        (phaseA foreign.sender a n recipient.peers foreign.peers)) := rfl
  refine ⟨?_, ?_, ?_⟩
  · rintro ⟨e, he, hid⟩
    have h1 : recipient.sender ∈ idsOf (phaseA foreign.sender a n recipient.peers foreign.peers) :=
      idsOf_phaseA_mono (mem_idsOf.mpr ⟨e, he, hid⟩)
    rcases mem_idsOf.mp h1 with ⟨e1, he1, hid1⟩
    have hsr : selfRefresh recipient.sender n e1 =
        { e1 with heartbeat := n, updated := some true } := selfRefresh_of_eq hid1
    have hk : keepPeer a n (selfRefresh recipient.sender n e1) = true := by
      rw [hsr]
      exact keepPeer_iff.mpr (Or.inl rfl)
    refine ⟨clearFlag (selfRefresh recipient.sender n e1), ?_, ?_, ?_⟩
    · rw [hres]
      exact mem_clearFlags.mpr ⟨selfRefresh recipient.sender n e1,
        mem_phaseB.mpr ⟨e1, he1, rfl, hk⟩, rfl⟩
    · rw [clearFlag_id, selfRefresh_id]
      exact hid1
    · rw [hsr]
      rfl
  · intro e2 he2 hid2
    rw [hres] at he2
    rcases mem_clearFlags.mp he2 with ⟨y, hy, hye⟩
    rcases mem_phaseB.mp hy with ⟨x, hx, hxy, hk⟩
    by_cases hxs : x.id = recipient.sender
    · rw [hye, hxy, selfRefresh_of_eq hxs]
      rfl
    · rw [hye, hxy, selfRefresh_of_ne hxs] at hid2
      exact absurd hid2 hxs
  · intro e he hne
    have hnd1 : (idsOf (phaseA foreign.sender a n recipient.peers foreign.peers)).Nodup :=
      idsOf_phaseA_nodup hnd
    have hce : collect e.id (phaseA foreign.sender a n recipient.peers foreign.peers) = [e] :=
      collect_singleton_of_nodup hnd1 he rfl
    have hcres : collect e.id (sync_state foreign recipient a n).peers =
        (([e].map (selfRefresh recipient.sender n)).filter (keepPeer a n)).map clearFlag := by
      rw [hres, collect_clearFlags, collect_phaseB, hce]
    rw [List.map_cons, List.map_nil, selfRefresh_of_ne hne] at hcres
    constructor
    · rintro ⟨e2, he2, hid2⟩
      have hmem : e.id ∈ idsOf (sync_state foreign recipient a n).peers :=
        mem_idsOf.mpr ⟨e2, he2, hid2⟩
      have hnil := mem_idsOf_iff_collect.mp hmem
      rw [hcres] at hnil
      by_cases hk : keepPeer a n e = true
      · exact keepPeer_iff.mp hk
      · exfalso
        apply hnil
        rw [List.filter_cons_of_neg hk]
        rfl
    · intro h
      have hk : keepPeer a n e = true := keepPeer_iff.mpr h
      have : collect e.id (sync_state foreign recipient a n).peers = [clearFlag e] := by
        rw [hcres, List.filter_cons_of_pos hk]
        rfl
      have hmem : clearFlag e ∈ collect e.id (sync_state foreign recipient a n).peers := by
        rw [this]
        exact List.mem_cons_self _ _
      have h2 := mem_collect.mp hmem
      exact ⟨clearFlag e, h2.1, h2.2⟩

/-- Witness for C2: the self-entry of a concrete local state is retained
with heartbeat `now` after a merge (spec scenario 5's setting). -/
theorem sync_state_retention_witness :
    ∃ e2 ∈ (sync_state ⟨"S", [⟨"S", 1, 10, none, none⟩]⟩
        ⟨"R", [⟨"R", 1, 1, none, none⟩, ⟨"peer6", 5, 8, none, none⟩]⟩ 2 11).peers,
      e2.id = "R" ∧ e2.heartbeat = 11 := by
  have h := sync_state_retention ⟨"S", [⟨"S", 1, 10, none, none⟩]⟩
      ⟨"R", [⟨"R", 1, 1, none, none⟩, ⟨"peer6", 5, 8, none, none⟩]⟩ 2 11
      (by decide) (by decide)
  exact h.1 ⟨⟨"R", 1, 1, none, none⟩, by decide, rfl⟩

/-! ### Claim C5: broadcast-round eviction of unresponsive peers -/

theorem dropNoReply_cons {hd : String × Option NetworkState}
    {tl : List (String × Option NetworkState)} {st : NetworkState} :
    dropNoReply (hd :: tl) st =
      dropNoReply tl
        (match hd.2 with
        | some _ => st
        | none => { st with peers := st.peers.filter (fun e => !(e.id == hd.1)) }) := by
  unfold dropNoReply
  rw [List.foldl_cons]

theorem dropNoReply_subset {fss : List (String × Option NetworkState)} :
    ∀ {st : NetworkState} {e : PeerState},
      e ∈ (dropNoReply fss st).peers → e ∈ st.peers := by
  induction fss with
  | nil => intro st e h; exact h
  | cons hd tl ih =>
    intro st e h
    rw [dropNoReply_cons] at h
    cases hv : hd.2 with
    | some v =>
      rw [hv] at h
      exact ih h
    | none =>
      rw [hv] at h
      have := ih h
      exact List.mem_of_mem_filter this

/-- C5: in one broadcast round, after every `Some` reply has been merged,
every peer id whose reply was `None` is absent from the resulting state —
whatever the merges (re)introduced and whatever its heartbeat. -/
theorem sync_received_states_no_reply_evicted
    (fss : List (String × Option NetworkState)) (recipient : NetworkState)
    (a n : Nat) (i : String) (h : (i, none) ∈ fss) :
    ∀ e ∈ (sync_received_states fss recipient a n).peers, ¬ e.id = i := by
  unfold sync_received_states
  generalize mergeReplies fss recipient a n = st
  induction fss generalizing st with
  | nil => cases h
  | cons hd tl ih =>
    rcases List.mem_cons.mp h with h1 | h1
    · intro e he hei
      rw [dropNoReply_cons] at he
      have hmem := dropNoReply_subset he
      rw [← h1] at hmem
      have := (List.mem_filter.mp hmem).2
      rw [hei] at this
      simp at this
    · intro e he hei
      rw [dropNoReply_cons] at he
      exact ih h1 _ e he hei

/-- Witness for C5: peer `B` does not reply; even though peer `A`'s merged
reply re-introduces `B` with a fresh heartbeat, `B` is absent afterwards. -/
theorem sync_received_states_no_reply_evicted_witness :
    ¬ ∃ e ∈ (sync_received_states
        [("A", some ⟨"A", [⟨"A", 1, 10, none, none⟩, ⟨"B", 3, 10, none, none⟩]⟩),
         ("B", none)]
        ⟨"R", [⟨"R", 1, 1, none, none⟩, ⟨"A", 1, 9, none, none⟩,
               ⟨"B", 2, 10, none, none⟩]⟩ 5 11).peers,
      e.id = "B" := by
  rintro ⟨e, he, hid⟩
  exact sync_received_states_no_reply_evicted
    [("A", some ⟨"A", [⟨"A", 1, 10, none, none⟩, ⟨"B", 3, 10, none, none⟩]⟩),
     ("B", none)]
    ⟨"R", [⟨"R", 1, 1, none, none⟩, ⟨"A", 1, 9, none, none⟩,
           ⟨"B", 2, 10, none, none⟩]⟩ 5 11 "B" (by decide) e he hid

/-! ### Claim C6: version monotonicity -/

theorem selfRefresh_version (s : String) (n : Nat) (e : PeerState) :
    (selfRefresh s n e).version = e.version := by
  unfold selfRefresh
  split_ifs <;> rfl

theorem clearFlag_version (e : PeerState) : (clearFlag e).version = e.version := rfl

theorem version_lb_syncOneP {fs : String} {a n : Nat} {ps : List PeerState}
    {fi : PeerState} {i : String} {v : Nat}
    (hin : i ∈ idsOf ps) (hlb : ∀ x ∈ ps, x.id = i → v ≤ x.version) :
    ∀ x ∈ syncOneP fs a n ps fi, x.id = i → v ≤ x.version := by
  by_cases hc : collect fi.id ps = []
  · have hfi : ¬ fi.id = i := by
      intro he
      subst he
      exact (mem_idsOf_iff_collect.mp hin) hc
    rw [syncOneP_unmatched hc]
    split_ifs with h1 h2 <;> intro x hx hxi
    · rcases List.mem_append.mp hx with h | h
      · exact hlb x h hxi
      · exfalso
        have hxe : x = { fi with updated := some true } := by simpa using h
        rw [hxe] at hxi
        exact hfi hxi
    · rcases List.mem_append.mp hx with h | h
      · exact hlb x h hxi
      · exfalso
        have hxe : x = { fi with version := 0, payload := none, updated := some true } := by
          simpa using h
        rw [hxe] at hxi
        exact hfi hxi
    · exact hlb x hx hxi
  · rw [syncOneP_matched hc]
    intro x hx hxi
    rcases mem_replaceFirst hx with ⟨z, hz, hzx | hzx⟩
    · rw [hzx]
      exact hlb z hz (hzx ▸ hxi)
    · have hzi : z.id = i := by
        rw [← updateMatched_id fs n fi z, ← hzx]
        exact hxi
      rw [hzx]
      exact le_trans (hlb z hz hzi) (updateMatched_version_le fs n fi z)

theorem version_lb_phaseA {fs : String} {a n : Nat} {fis : List PeerState}
    {i : String} {v : Nat} :
    ∀ {ps : List PeerState}, i ∈ idsOf ps → (∀ x ∈ ps, x.id = i → v ≤ x.version) →
    ∀ x ∈ phaseA fs a n ps fis, x.id = i → v ≤ x.version := by
  induction fis with
  | nil => intro ps _ hlb; exact hlb
  | cons fj rest ih =>
    intro ps hin hlb
    rw [phaseA_cons]
    exact ih (idsOf_syncOneP_mono hin) (version_lb_syncOneP hin hlb)

/-- Counterexample to C6 as stated: at a node `R` with unique peer ids, an
entry for `p` is held at version 5, is evicted by a first merge (its
heartbeat is stale and nothing touches it), and a second merge reinserts
`p` from a third-party sighting as a reset clone with version 0.  So
across this node's sequence of local views the version of `p` goes from 5
to 0: it is not non-decreasing once the entry disappears and reappears. -/
theorem sync_state_version_mono_counterexample :
    (∃ e ∈ (⟨"R", [⟨"R", 0, 10, none, none⟩, ⟨"p", 5, 0, none, none⟩]⟩ : NetworkState).peers,
      e.id = "p" ∧ e.version = 5) ∧
    (∃ e2 ∈ (sync_state ⟨"S", [⟨"p", 7, 10, none, none⟩]⟩
        (sync_state ⟨"S", []⟩
          ⟨"R", [⟨"R", 0, 10, none, none⟩, ⟨"p", 5, 0, none, none⟩]⟩ 2 10)
        2 10).peers,
      e2.id = "p" ∧ e2.version = 0) := by
  decide

/-- C6 amended: the version of a peer's entry never decreases across a
single merge while the entry stays present — for every pre-merge entry `e`
and every post-merge entry with the same id, the version is ≥ `e`'s (the
broadcast-round `None`-eviction only removes entries, never rewriting
versions).  Across an eviction and a later reinsertion the version is not
preserved (see the counterexample: a reset clone restarts at 0). -/
theorem sync_state_version_mono
    (foreign recipient : NetworkState) (a n : Nat)
    (hnd : (idsOf recipient.peers).Nodup) :
    ∀ e ∈ recipient.peers, ∀ e2 ∈ (sync_state foreign recipient a n).peers,
      e2.id = e.id → e.version ≤ e2.version := by
  intro e he e2 he2 hid
  have hin : e.id ∈ idsOf recipient.peers := mem_idsOf.mpr ⟨e, he, rfl⟩
  have hlb : ∀ x ∈ recipient.peers, x.id = e.id → e.version ≤ x.version := by
    intro x hx hxi
    have hcol := collect_singleton_of_nodup hnd hx hxi
    have hcole := collect_singleton_of_nodup hnd he rfl
    rw [hcol] at hcole
    have hxe : x = e := (List.cons.injEq x [] e []).mp hcole |>.1
    rw [hxe]
  have hres : (sync_state foreign recipient a n).peers =
      clearFlags (phaseB recipient.sender a n
        (phaseA foreign.sender a n recipient.peers foreign.peers)) := rfl
  rw [hres] at he2
  rcases mem_clearFlags.mp he2 with ⟨y, hy, hye⟩
  rcases mem_phaseB.mp hy with ⟨x, hx, hxy, _⟩
  have hxid : x.id = e.id := by
    rw [← hid, hye, clearFlag_id, hxy, selfRefresh_id]
  have hv := version_lb_phaseA hin hlb x hx hxid
  rw [hye, clearFlag_version, hxy, selfRefresh_version]
  exact hv

/-- Witness for the amended C6: a higher foreign version with a stale
heartbeat leaves the local `p` in place with version at least its
pre-merge value 5. -/
theorem sync_state_version_mono_witness :
    ∃ e2 ∈ (sync_state ⟨"S", [⟨"p", 9, 3, none, none⟩]⟩
        ⟨"R", [⟨"R", 0, 1, none, none⟩, ⟨"p", 5, 10, none, none⟩]⟩ 5 11).peers,
      e2.id = "p" ∧ 5 ≤ e2.version := by
  obtain ⟨e2, he2, hid⟩ : ∃ e2 ∈ (sync_state ⟨"S", [⟨"p", 9, 3, none, none⟩]⟩
      ⟨"R", [⟨"R", 0, 1, none, none⟩, ⟨"p", 5, 10, none, none⟩]⟩ 5 11).peers,
      e2.id = "p" := by decide
  refine ⟨e2, he2, hid, ?_⟩
  exact sync_state_version_mono ⟨"S", [⟨"p", 9, 3, none, none⟩]⟩
    ⟨"R", [⟨"R", 0, 1, none, none⟩, ⟨"p", 5, 10, none, none⟩]⟩ 5 11 (by decide)
    ⟨"p", 5, 10, none, none⟩ (by decide) e2 he2 hid

/-! ### Claim C9: the incoming `updated` flags are never trusted -/

theorem updateMatched_congr {fs : String} {n : Nat} {fi1 fi2 : PeerState}
    (h : peerEqExceptUpdated fi1 fi2) :
    updateMatched fs n fi1 = updateMatched fs n fi2 := by
  rcases h with ⟨_, h2, h3, h4⟩
  funext ri
  unfold updateMatched
  rw [h2, h3, h4]

theorem syncOneP_congr {fs : String} {a n : Nat} {ps : List PeerState}
    {fi1 fi2 : PeerState} (h : peerEqExceptUpdated fi1 fi2) :
    syncOneP fs a n ps fi1 = syncOneP fs a n ps fi2 := by
  have hg := @updateMatched_congr fs n fi1 fi2 h
  rcases h with ⟨h1, h2, h3, h4⟩
  unfold syncOneP
  simp only [h1, h2, h3, h4, hg]

theorem phaseA_congr {fs : String} {a n : Nat} :
    ∀ (fis1 fis2 : List PeerState), peersEqExceptUpdated fis1 fis2 →
    ∀ ps : List PeerState, phaseA fs a n ps fis1 = phaseA fs a n ps fis2
  | [], [], _, _ => rfl
  | [], _ :: _, h, _ => by simp [peersEqExceptUpdated] at h
  | _ :: _, [], h, _ => by simp [peersEqExceptUpdated] at h
  | p :: ps1, q :: qs1, h, ps => by
    rw [phaseA_cons, phaseA_cons, syncOneP_congr h.1]
    exact phaseA_congr ps1 qs1 h.2 _

/-- C9: the merge result does not depend on the `updated` fields of the
incoming foreign state — two foreign states that differ only there produce
identical local states — and after every merge every `updated` flag in the
local state is cleared. -/
theorem sync_state_ignores_foreign_updated
    (f1 f2 recipient : NetworkState) (a n : Nat)
    (hs : f1.sender = f2.sender) (hp : peersEqExceptUpdated f1.peers f2.peers) :
    sync_state f1 recipient a n = sync_state f2 recipient a n ∧
    (∀ e ∈ (sync_state f1 recipient a n).peers, e.updated = none) := by
  constructor
  · unfold sync_state
    rw [hs, phaseA_congr f1.peers f2.peers hp recipient.peers]
  · intro e he
    have he' : e ∈ clearFlags (phaseB recipient.sender a n
        (phaseA f1.sender a n recipient.peers f1.peers)) := he
    rcases mem_clearFlags.mp he' with ⟨x, _, hxe⟩
    rw [hxe]
    rfl

/-- Witness for C9: flipping a foreign entry's `updated` flag changes
nothing, and the result carries no flags. -/
theorem sync_state_ignores_foreign_updated_witness :
    sync_state ⟨"S", [⟨"S", 1, 5, some "m", some true⟩]⟩
        ⟨"R", [⟨"R", 0, 5, none, none⟩]⟩ 1 5 =
      sync_state ⟨"S", [⟨"S", 1, 5, some "m", none⟩]⟩
        ⟨"R", [⟨"R", 0, 5, none, none⟩]⟩ 1 5 ∧
    (∀ e ∈ (sync_state ⟨"S", [⟨"S", 1, 5, some "m", some true⟩]⟩
        ⟨"R", [⟨"R", 0, 5, none, none⟩]⟩ 1 5).peers, e.updated = none) :=
  sync_state_ignores_foreign_updated
    ⟨"S", [⟨"S", 1, 5, some "m", some true⟩]⟩
    ⟨"S", [⟨"S", 1, 5, some "m", none⟩]⟩
    ⟨"R", [⟨"R", 0, 5, none, none⟩]⟩ 1 5 rfl ⟨⟨rfl, rfl, rfl, rfl⟩, trivial⟩

/-! ### Claim C10: the recipient's own entry can be rewritten by a third-party report -/

theorem phaseA_append {fs : String} {a n : Nat} {ps l1 l2 : List PeerState} :
    phaseA fs a n ps (l1 ++ l2) = phaseA fs a n (phaseA fs a n ps l1) l2 := by
  unfold phaseA
  rw [List.foldl_append]

/-- C10: merge can modify the recipient's own self-entry's version and
payload: when the foreign state (from a different sender) reports an entry
with the local sender's id carrying a strictly higher version and strictly
higher heartbeat than the local self-entry, the local node adopts that
version and payload for itself (heartbeat then reset to `now` by Phase B) —
even though the spec designates `version` as owned by the peer whose id it
is. -/
theorem sync_state_self_entry_overwritten
    (foreign recipient : NetworkState) (a n : Nat) (r fi : PeerState)
    (hnd : (idsOf recipient.peers).Nodup) (hndf : (idsOf foreign.peers).Nodup)
    (hsne : ¬ foreign.sender = recipient.sender)
    (hr : r ∈ recipient.peers) (hrid : r.id = recipient.sender)
    (hfi : fi ∈ foreign.peers) (hfid : fi.id = recipient.sender)
    (hv : fi.version > r.version) (hh : fi.heartbeat > r.heartbeat) :
    ∃ e2 ∈ (sync_state foreign recipient a n).peers,
      e2.id = recipient.sender ∧ e2.version = fi.version ∧
      e2.payload = fi.payload ∧ e2.heartbeat = n := by
  rcases List.append_of_mem hfi with ⟨pre, post, hsplit⟩
  have hids : idsOf foreign.peers = idsOf pre ++ fi.id :: idsOf post := by
    rw [hsplit, idsOf_append]
    rfl
  have hndf' := hids ▸ hndf
  have hprene : ∀ fj ∈ pre, ¬ fj.id = recipient.sender := by
    intro fj hfj he
    have h1 : fi.id ∈ idsOf pre :=
      mem_idsOf.mpr ⟨fj, hfj, he.trans hfid.symm⟩
    have := (List.nodup_append.mp hndf').2.2
    exact this h1 (List.mem_cons_self _ _)
  have hpostne : ∀ fj ∈ post, ¬ fj.id = recipient.sender := by
    intro fj hfj he
    have h2 := (List.nodup_append.mp hndf').2.1
    have h3 : fi.id ∈ idsOf post :=
      mem_idsOf.mpr ⟨fj, hfj, he.trans hfid.symm⟩
    exact (List.nodup_cons.mp h2).1 h3
  have hc0 : collect recipient.sender recipient.peers = [r] :=
    collect_singleton_of_nodup hnd hr hrid
  have hc1 : collect recipient.sender
      (phaseA foreign.sender a n recipient.peers pre) = [r] := by
    rw [collect_phaseA_ne hprene]
    exact hc0
  have hu : updateMatched foreign.sender n fi r =
      { r with version := fi.version, heartbeat := fi.heartbeat,
               payload := fi.payload, updated := some true } := by
    have hsb : ¬ (foreign.sender == r.id) = true := by
      intro hb
      exact hsne (hrid ▸ beq_iff_eq.mp hb)
    unfold updateMatched
    rw [if_neg hsb, if_pos hv, if_pos hh]
  have hc2 : collect recipient.sender
      (phaseA foreign.sender a n recipient.peers foreign.peers) =
      [{ r with version := fi.version, heartbeat := fi.heartbeat,
                payload := fi.payload, updated := some true }] := by
    rw [hsplit, phaseA_append]
    have hcons : phaseA foreign.sender a n
        (phaseA foreign.sender a n recipient.peers pre) (fi :: post) =
        phaseA foreign.sender a n
          (syncOneP foreign.sender a n
            (phaseA foreign.sender a n recipient.peers pre) fi) post := rfl
    rw [hcons, collect_phaseA_ne hpostne]
    have := @collect_syncOneP_self foreign.sender a n
      (phaseA foreign.sender a n recipient.peers pre) fi
    rw [hfid] at this
    rw [this, hc1]
    show updateMatched foreign.sender n fi r :: [] = _
    rw [hu]
  have hres : (sync_state foreign recipient a n).peers =
      clearFlags (phaseB recipient.sender a n
        (phaseA foreign.sender a n recipient.peers foreign.peers)) := rfl
  have huid : ({ r with version := fi.version, heartbeat := fi.heartbeat, payload := fi.payload, updated := some true } : PeerState).id = recipient.sender := hrid
  have hsr := @selfRefresh_of_eq recipient.sender n _ huid
  have hkeep : keepPeer a n (selfRefresh recipient.sender n
      { r with version := fi.version, heartbeat := fi.heartbeat,
               payload := fi.payload, updated := some true }) = true := by
    rw [hsr]
    exact keepPeer_iff.mpr (Or.inl rfl)
  have hcres : collect recipient.sender (sync_state foreign recipient a n).peers =
      [clearFlag (selfRefresh recipient.sender n
        { r with version := fi.version, heartbeat := fi.heartbeat,
                 payload := fi.payload, updated := some true })] := by
    rw [hres, collect_clearFlags, collect_phaseB, hc2, List.map_cons, List.map_nil,
        List.filter_cons_of_pos hkeep]
    rfl
  have hmem : clearFlag (selfRefresh recipient.sender n
      { r with version := fi.version, heartbeat := fi.heartbeat,
               payload := fi.payload, updated := some true }) ∈
      collect recipient.sender (sync_state foreign recipient a n).peers := by
    rw [hcres]
    exact List.mem_cons_self _ _
  refine ⟨_, (mem_collect.mp hmem).1, (mem_collect.mp hmem).2, ?_, ?_, ?_⟩
  · rw [hsr]
    rfl
  · rw [hsr]
    rfl
  · rw [hsr]
    rfl

/-- Witness for C10: a foreign state from `S` rewrites `R`'s own entry. -/
theorem sync_state_self_entry_overwritten_witness :
    ∃ e2 ∈ (sync_state ⟨"S", [⟨"R", 3, 7, some "forged", none⟩]⟩
        ⟨"R", [⟨"R", 1, 5, some "mine", none⟩]⟩ 2 9).peers,
      e2.id = "R" ∧ e2.version = 3 ∧ e2.payload = some "forged" ∧ e2.heartbeat = 9 :=
  sync_state_self_entry_overwritten
    ⟨"S", [⟨"R", 3, 7, some "forged", none⟩]⟩
    ⟨"R", [⟨"R", 1, 5, some "mine", none⟩]⟩ 2 9
    ⟨"R", 1, 5, some "mine", none⟩ ⟨"R", 3, 7, some "forged", none⟩
    (by decide) (by decide) (by decide)
    (by decide) rfl (by decide) rfl (by decide) (by decide)

/-! ### Claim C8: totality and the u64 overflow -/

/-- C8: the merge is not total over all u64 inputs: with a foreign entry
whose heartbeat is u64::MAX and alive_duration 1, the sum
`fi.heartbeat + alive_duration` (src/sync.rs line 74) leaves the u64
range, so the checked model faults (`none`) — the default, overflow-checking
build of the Rust panics there ("attempt to add with overflow"), while a
release build wraps the sum to 0 and silently treats the maximally-recent
peer as dead.  The second conjunct shows the same input in the unbounded
model, where the intended outcome is to insert the peer as a reset clone. -/
theorem sync_state_overflow_fault :
    sync_state_checked ⟨"s", [⟨"p", 3, 18446744073709551615, none, none⟩]⟩
        ⟨"r", []⟩ 1 5 = none ∧
    sync_state ⟨"s", [⟨"p", 3, 18446744073709551615, none, none⟩]⟩
        ⟨"r", []⟩ 1 5 =
      ⟨"r", [⟨"p", 0, 18446744073709551615, none, none⟩]⟩ := by
  constructor
  · decide
  · decide

/-! ### Claim C7: idempotence of the merge -/

/-- Counterexample to C7 as stated: merging the same foreign state twice
(same `alive_duration`, same `now`) is not a no-op.  Here the foreign
sender `s` is unknown to `r`, so the first merge inserts `s`'s entry as a
clone keeping its heartbeat 5; the second merge finds the entry and the
sender branch forcibly refreshes its heartbeat to `now` = 7, changing the
state. -/
theorem sync_state_idempotent_counterexample :
    sync_state ⟨"s", [⟨"s", 1, 5, none, none⟩]⟩
      (sync_state ⟨"s", [⟨"s", 1, 5, none, none⟩]⟩
        ⟨"r", [⟨"r", 0, 0, none, none⟩]⟩ 100 7)
      100 7 ≠
    sync_state ⟨"s", [⟨"s", 1, 5, none, none⟩]⟩
      ⟨"r", [⟨"r", 0, 0, none, none⟩]⟩ 100 7 := by
  decide

/-! Case laws for `updateMatched`. -/

theorem updateMatched_sender_adopt {fs : String} {n : Nat} {fi ri : PeerState}
    (hs : (fs == ri.id) = true) (hv : fi.version > ri.version) :
    updateMatched fs n fi ri =
      { ri with heartbeat := n, version := fi.version, payload := fi.payload,
                updated := some true } := by
  unfold updateMatched
  rw [if_pos hs, if_pos hv]

theorem updateMatched_sender_keep {fs : String} {n : Nat} {fi ri : PeerState}
    (hs : (fs == ri.id) = true) (hv : ¬ fi.version > ri.version) :
    updateMatched fs n fi ri = { ri with heartbeat := n } := by
  unfold updateMatched
  rw [if_pos hs, if_neg hv]

theorem updateMatched_tp_adopt {fs : String} {n : Nat} {fi ri : PeerState}
    (hs : ¬ (fs == ri.id) = true) (hv : fi.version > ri.version)
    (hh : fi.heartbeat > ri.heartbeat) :
    updateMatched fs n fi ri =
      { ri with version := fi.version, heartbeat := fi.heartbeat,
                payload := fi.payload, updated := some true } := by
  unfold updateMatched
  rw [if_neg hs, if_pos hv, if_pos hh]

theorem updateMatched_tp_vgt_keep {fs : String} {n : Nat} {fi ri : PeerState}
    (hs : ¬ (fs == ri.id) = true) (hv : fi.version > ri.version)
    (hh : ¬ fi.heartbeat > ri.heartbeat) :
    updateMatched fs n fi ri = ri := by
  unfold updateMatched
  rw [if_neg hs, if_pos hv, if_neg hh]

theorem updateMatched_tp_hb {fs : String} {n : Nat} {fi ri : PeerState}
    (hs : ¬ (fs == ri.id) = true) (hv : ¬ fi.version > ri.version)
    (he : (fi.version == ri.version) = true) (hh : fi.heartbeat > ri.heartbeat) :
    updateMatched fs n fi ri = { ri with heartbeat := fi.heartbeat } := by
  unfold updateMatched
  rw [if_neg hs, if_neg hv, if_pos he, if_pos hh]

theorem updateMatched_tp_hb_keep {fs : String} {n : Nat} {fi ri : PeerState}
    (hs : ¬ (fs == ri.id) = true) (hv : ¬ fi.version > ri.version)
    (he : (fi.version == ri.version) = true) (hh : ¬ fi.heartbeat > ri.heartbeat) :
    updateMatched fs n fi ri = ri := by
  unfold updateMatched
  rw [if_neg hs, if_neg hv, if_pos he, if_neg hh]

theorem updateMatched_tp_lt {fs : String} {n : Nat} {fi ri : PeerState}
    (hs : ¬ (fs == ri.id) = true) (hv : ¬ fi.version > ri.version)
    (he : ¬ (fi.version == ri.version) = true) :
    updateMatched fs n fi ri = ri := by
  unfold updateMatched
  rw [if_neg hs, if_neg hv, if_neg he]

theorem updateMatched_heartbeat_cases (fs : String) (n : Nat) (fi ri : PeerState) :
    (updateMatched fs n fi ri).heartbeat = ri.heartbeat ∨
    (updateMatched fs n fi ri).heartbeat = n ∨
    (updateMatched fs n fi ri).heartbeat = fi.heartbeat := by
  unfold updateMatched
  split_ifs <;> simp

/-- One matched update is idempotent on a single entry, unconditionally. -/
theorem updateMatched_idem (fs : String) (n : Nat) (fi r : PeerState) :
    updateMatched fs n fi (updateMatched fs n fi r) = updateMatched fs n fi r := by
  by_cases hs : (fs == r.id) = true
  · by_cases hv : fi.version > r.version
    · rw [updateMatched_sender_adopt hs hv]
      have hs2 : (fs == ({ r with heartbeat := n, version := fi.version, payload := fi.payload, updated := some true } : PeerState).id) = true := hs
      have hv2 : ¬ fi.version > ({ r with heartbeat := n, version := fi.version, payload := fi.payload, updated := some true } : PeerState).version := by
        show ¬ fi.version > fi.version
        omega
      rw [updateMatched_sender_keep hs2 hv2]
    · rw [updateMatched_sender_keep hs hv]
      have hs2 : (fs == ({ r with heartbeat := n } : PeerState).id) = true := hs
      have hv2 : ¬ fi.version > ({ r with heartbeat := n } : PeerState).version := hv
      rw [updateMatched_sender_keep hs2 hv2]
  · by_cases hv : fi.version > r.version
    · by_cases hh : fi.heartbeat > r.heartbeat
      · rw [updateMatched_tp_adopt hs hv hh]
        have hs2 : ¬ (fs == ({ r with version := fi.version, heartbeat := fi.heartbeat, payload := fi.payload, updated := some true } : PeerState).id) = true := hs
        have hv2 : ¬ fi.version > ({ r with version := fi.version, heartbeat := fi.heartbeat, payload := fi.payload, updated := some true } : PeerState).version := by
          show ¬ fi.version > fi.version
          omega
        have he2 : (fi.version == ({ r with version := fi.version, heartbeat := fi.heartbeat, payload := fi.payload, updated := some true } : PeerState).version) = true := by
          show (fi.version == fi.version) = true
          exact beq_self_eq_true fi.version
        have hh2 : ¬ fi.heartbeat > ({ r with version := fi.version, heartbeat := fi.heartbeat, payload := fi.payload, updated := some true } : PeerState).heartbeat := by
          show ¬ fi.heartbeat > fi.heartbeat
          omega
        rw [updateMatched_tp_hb_keep hs2 hv2 he2 hh2]
      · rw [updateMatched_tp_vgt_keep hs hv hh, updateMatched_tp_vgt_keep hs hv hh]
    · by_cases he : (fi.version == r.version) = true
      · by_cases hh : fi.heartbeat > r.heartbeat
        · rw [updateMatched_tp_hb hs hv he hh]
          have hs2 : ¬ (fs == ({ r with heartbeat := fi.heartbeat } : PeerState).id) = true := hs
          have hv2 : ¬ fi.version > ({ r with heartbeat := fi.heartbeat } : PeerState).version := hv
          have he2 : (fi.version == ({ r with heartbeat := fi.heartbeat } : PeerState).version) = true := he
          have hh2 : ¬ fi.heartbeat > ({ r with heartbeat := fi.heartbeat } : PeerState).heartbeat := by
            show ¬ fi.heartbeat > fi.heartbeat
            omega
          rw [updateMatched_tp_hb_keep hs2 hv2 he2 hh2]
        · rw [updateMatched_tp_hb_keep hs hv he hh, updateMatched_tp_hb_keep hs hv he hh]
      · rw [updateMatched_tp_lt hs hv he, updateMatched_tp_lt hs hv he]

/-- An inserted sender clone with heartbeat `now` is a fixpoint of its own
matched update. -/
theorem updateMatched_sender_clone_fix {fs : String} {n : Nat} {fi : PeerState}
    (hs : fi.id = fs) (hhb : fi.heartbeat = n) :
    updateMatched fs n fi { fi with updated := some true } =
      { fi with updated := some true } := by
  have hsb : (fs == ({ fi with updated := some true } : PeerState).id) = true := by
    show (fs == fi.id) = true
    exact beq_iff_eq.mpr hs.symm
  have hv : ¬ fi.version > ({ fi with updated := some true } : PeerState).version := by
    show ¬ fi.version > fi.version
    omega
  rw [updateMatched_sender_keep hsb hv, hhb]

/-- An inserted reset clone is a fixpoint of its own matched update. -/
theorem updateMatched_reset_clone_fix {fs : String} {n : Nat} {fi : PeerState}
    (hs : ¬ fi.id = fs) :
    updateMatched fs n fi { fi with version := 0, payload := none, updated := some true } =
      { fi with version := 0, payload := none, updated := some true } := by
  have hsb : ¬ (fs == ({ fi with version := 0, payload := none, updated := some true } : PeerState).id) = true := by
    intro hb
    exact hs (beq_iff_eq.mp hb).symm
  by_cases hv : fi.version > ({ fi with version := 0, payload := none, updated := some true } : PeerState).version
  · have hh : ¬ fi.heartbeat > ({ fi with version := 0, payload := none, updated := some true } : PeerState).heartbeat := by
      show ¬ fi.heartbeat > fi.heartbeat
      omega
    rw [updateMatched_tp_vgt_keep hsb hv hh]
  · have he : (fi.version == ({ fi with version := 0, payload := none, updated := some true } : PeerState).version) = true := by
      show (fi.version == 0) = true
      have h0 : ¬ fi.version > 0 := hv
      exact beq_iff_eq.mpr (by omega)
    have hh : ¬ fi.heartbeat > ({ fi with version := 0, payload := none, updated := some true } : PeerState).heartbeat := by
      show ¬ fi.heartbeat > fi.heartbeat
      omega
    rw [updateMatched_tp_hb_keep hsb hv he hh]

/-- Stability of an entry under a matched update survives a change of its
transient flag. -/
theorem stab_flag_change {fs : String} {n : Nat} {fi y : PeerState} {u2 : Option Bool}
    (h : updateMatched fs n fi y = y) :
    updateMatched fs n fi { y with updated := u2 } = { y with updated := u2 } := by
  by_cases hs : (fs == y.id) = true
  · have hs2 : (fs == ({ y with updated := u2 } : PeerState).id) = true := hs
    by_cases hv : fi.version > y.version
    · exfalso
      rw [updateMatched_sender_adopt hs hv] at h
      have hvv0 := congrArg PeerState.version h
      have hvv : fi.version = y.version := hvv0
      omega
    · have hv2 : ¬ fi.version > ({ y with updated := u2 } : PeerState).version := hv
      rw [updateMatched_sender_keep hs2 hv2]
      rw [updateMatched_sender_keep hs hv] at h
      have hhb0 := congrArg PeerState.heartbeat h
      have hhb : n = y.heartbeat := hhb0
      rw [← hhb]
  · have hs2 : ¬ (fs == ({ y with updated := u2 } : PeerState).id) = true := hs
    by_cases hv : fi.version > y.version
    · by_cases hh : fi.heartbeat > y.heartbeat
      · exfalso
        rw [updateMatched_tp_adopt hs hv hh] at h
        have hvv0 := congrArg PeerState.version h
        have hvv : fi.version = y.version := hvv0
        omega
      · have hv2 : fi.version > ({ y with updated := u2 } : PeerState).version := hv
        have hh2 : ¬ fi.heartbeat > ({ y with updated := u2 } : PeerState).heartbeat := hh
        rw [updateMatched_tp_vgt_keep hs2 hv2 hh2]
    · by_cases he : (fi.version == y.version) = true
      · by_cases hh : fi.heartbeat > y.heartbeat
        · exfalso
          rw [updateMatched_tp_hb hs hv he hh] at h
          have hbb0 := congrArg PeerState.heartbeat h
          have hbb : fi.heartbeat = y.heartbeat := hbb0
          omega
        · have hv2 : ¬ fi.version > ({ y with updated := u2 } : PeerState).version := hv
          have he2 : (fi.version == ({ y with updated := u2 } : PeerState).version) = true := he
          have hh2 : ¬ fi.heartbeat > ({ y with updated := u2 } : PeerState).heartbeat := hh
          rw [updateMatched_tp_hb_keep hs2 hv2 he2 hh2]
      · have hv2 : ¬ fi.version > ({ y with updated := u2 } : PeerState).version := hv
        have he2 : ¬ (fi.version == ({ y with updated := u2 } : PeerState).version) = true := he
        rw [updateMatched_tp_lt hs2 hv2 he2]

/-- Stability survives the Phase-B self-refresh (heartbeat forced to `now`
and flag cleared), provided the foreign entry's heartbeat is at most
`now`. -/
theorem stab_self_refresh {fs : String} {n : Nat} {fi y : PeerState}
    (h : updateMatched fs n fi y = y) (hhb : fi.heartbeat ≤ n) :
    updateMatched fs n fi { y with heartbeat := n, updated := none } =
      { y with heartbeat := n, updated := none } := by
  by_cases hs : (fs == y.id) = true
  · have hs2 : (fs == ({ y with heartbeat := n, updated := none } : PeerState).id) = true := hs
    by_cases hv : fi.version > y.version
    · exfalso
      rw [updateMatched_sender_adopt hs hv] at h
      have hvv0 := congrArg PeerState.version h
      have hvv : fi.version = y.version := hvv0
      omega
    · have hv2 : ¬ fi.version > ({ y with heartbeat := n, updated := none } : PeerState).version := hv
      rw [updateMatched_sender_keep hs2 hv2]
  · have hs2 : ¬ (fs == ({ y with heartbeat := n, updated := none } : PeerState).id) = true := hs
    by_cases hv : fi.version > y.version
    · have hv2 : fi.version > ({ y with heartbeat := n, updated := none } : PeerState).version := hv
      have hh2 : ¬ fi.heartbeat > ({ y with heartbeat := n, updated := none } : PeerState).heartbeat := by
        show ¬ fi.heartbeat > n
        omega
      rw [updateMatched_tp_vgt_keep hs2 hv2 hh2]
    · by_cases he : (fi.version == y.version) = true
      · have hv2 : ¬ fi.version > ({ y with heartbeat := n, updated := none } : PeerState).version := hv
        have he2 : (fi.version == ({ y with heartbeat := n, updated := none } : PeerState).version) = true := he
        have hh2 : ¬ fi.heartbeat > ({ y with heartbeat := n, updated := none } : PeerState).heartbeat := by
          show ¬ fi.heartbeat > n
          omega
        rw [updateMatched_tp_hb_keep hs2 hv2 he2 hh2]
      · have hv2 : ¬ fi.version > ({ y with heartbeat := n, updated := none } : PeerState).version := hv
        have he2 : ¬ (fi.version == ({ y with heartbeat := n, updated := none } : PeerState).version) = true := he
        rw [updateMatched_tp_lt hs2 hv2 he2]

/-- Stability survives Phase B and Phase C combined. -/
theorem stab_through_phaseBC {rs fs : String} {n : Nat} {fi y : PeerState}
    (h : updateMatched fs n fi y = y) (hhb : fi.heartbeat ≤ n) :
    updateMatched fs n fi (clearFlag (selfRefresh rs n y)) =
      clearFlag (selfRefresh rs n y) := by
  by_cases hy : y.id = rs
  · rw [selfRefresh_of_eq hy]
    show updateMatched fs n fi { y with heartbeat := n, updated := none } =
      { y with heartbeat := n, updated := none }
    exact stab_self_refresh h hhb
  · rw [selfRefresh_of_ne hy]
    show updateMatched fs n fi { y with updated := none } = { y with updated := none }
    exact stab_flag_change h

theorem map_id_of {g : PeerState → PeerState} {ps : List PeerState}
    (h : ∀ x ∈ ps, g x = x) : ps.map g = ps := by
  induction ps with
  | nil => rfl
  | cons x xs ih =>
    rw [List.map_cons, h x (List.mem_cons_self x xs),
        ih fun z hz => h z (List.mem_cons_of_mem x hz)]

theorem alive_syncOneP {fs : String} {a n : Nat} {ps : List PeerState} {fi : PeerState}
    (hps : ∀ x ∈ ps, n ≤ x.heartbeat + a) (hfi : n ≤ fi.heartbeat + a) :
    ∀ x ∈ syncOneP fs a n ps fi, n ≤ x.heartbeat + a := by
  intro x hx
  rcases mem_syncOneP hx with ⟨z, hz, hzx | hzx⟩ | hx1 | hx1
  · rw [hzx]
    exact hps z hz
  · rw [hzx]
    rcases updateMatched_heartbeat_cases fs n fi z with hc | hc | hc <;> rw [hc]
    · exact hps z hz
    · omega
    · exact hfi
  · rw [hx1]
    exact hfi
  · rw [hx1]
    exact hfi

theorem alive_phaseA {fs : String} {a n : Nat} :
    ∀ {fis ps : List PeerState}, (∀ fi ∈ fis, n ≤ fi.heartbeat + a) →
    (∀ x ∈ ps, n ≤ x.heartbeat + a) →
    ∀ x ∈ phaseA fs a n ps fis, n ≤ x.heartbeat + a := by
  intro fis
  induction fis with
  | nil => intro ps _ h; exact h
  | cons fj rest ih =>
    intro ps hf h
    rw [phaseA_cons]
    exact ih (fun z hz => hf z (List.mem_cons_of_mem fj hz))
      (alive_syncOneP h (hf fj (List.mem_cons_self fj rest)))

theorem syncOneP_fix {fs : String} {a n : Nat} {ps : List PeerState} {fi : PeerState}
    (hne : collect fi.id ps ≠ [])
    (hstab : ∀ x ∈ ps, x.id = fi.id → updateMatched fs n fi x = x) :
    syncOneP fs a n ps fi = ps := by
  rw [syncOneP_matched hne]
  exact replaceFirst_eq_self fun x hx hp => hstab x hx (beq_iff_eq.mp hp).symm

theorem phaseA_fix {fs : String} {a n : Nat} :
    ∀ {fis ps : List PeerState},
    (∀ fi ∈ fis, collect fi.id ps ≠ [] ∧
      ∀ x ∈ ps, x.id = fi.id → updateMatched fs n fi x = x) →
    phaseA fs a n ps fis = ps := by
  intro fis
  induction fis with
  | nil => intro ps _; rfl
  | cons fj rest ih =>
    intro ps h
    rw [phaseA_cons,
        syncOneP_fix (h fj (List.mem_cons_self fj rest)).1 (h fj (List.mem_cons_self fj rest)).2]
    exact ih fun fi hfi => h fi (List.mem_cons_of_mem fj hfi)

theorem phaseB_all_alive {s : String} {a n : Nat} {ps : List PeerState}
    (h : ∀ x ∈ ps, n ≤ x.heartbeat + a) :
    phaseB s a n ps = ps.map (selfRefresh s n) := by
  unfold phaseB
  apply List.filter_eq_self.mpr
  intro y hy
  rcases List.mem_map.mp hy with ⟨x, hx, hxy⟩
  rw [← hxy]
  by_cases hxs : x.id = s
  · rw [selfRefresh_of_eq hxs]
    exact keepPeer_iff.mpr (Or.inl rfl)
  · rw [selfRefresh_of_ne hxs]
    exact keepPeer_iff.mpr (Or.inr (h x hx))

theorem clearFlags_selfRefresh_eq {s : String} {n : Nat} {ps : List PeerState}
    (h4 : ∀ x ∈ ps, x.id = s → x.heartbeat = n) (h5 : ∀ x ∈ ps, x.updated = none) :
    clearFlags (ps.map (selfRefresh s n)) = ps := by
  unfold clearFlags
  rw [List.map_map]
  apply map_id_of
  intro x hx
  show clearFlag (selfRefresh s n x) = x
  by_cases hxs : x.id = s
  · have hh := h4 x hx hxs
    have hu := h5 x hx
    rw [selfRefresh_of_eq hxs]
    show ({ x with heartbeat := n, updated := none } : PeerState) = x
    cases x with
    | mk xi xv xh xp xu => simp_all
  · have hu := h5 x hx
    rw [selfRefresh_of_ne hxs]
    show ({ x with updated := none } : PeerState) = x
    cases x with
    | mk xi xv xh xp xu => simp_all

/-- The fixpoint lemma: a state in which every foreign entry finds a
stable match, every entry is alive, every self-entry already has heartbeat
`now`, and no flag is set, is left unchanged by the merge. -/
theorem sync_state_fix (foreign s : NetworkState) (a n : Nat)
    (h12 : ∀ fi ∈ foreign.peers, collect fi.id s.peers ≠ [] ∧
      ∀ x ∈ s.peers, x.id = fi.id → updateMatched foreign.sender n fi x = x)
    (h3 : ∀ x ∈ s.peers, n ≤ x.heartbeat + a)
    (h4 : ∀ x ∈ s.peers, x.id = s.sender → x.heartbeat = n)
    (h5 : ∀ x ∈ s.peers, x.updated = none) :
    sync_state foreign s a n = s := by
  have hA : phaseA foreign.sender a n s.peers foreign.peers = s.peers := phaseA_fix h12
  show ({ sender := s.sender,
          peers := clearFlags (phaseB s.sender a n
            (phaseA foreign.sender a n s.peers foreign.peers)) } : NetworkState) = s
  rw [hA, phaseB_all_alive h3, clearFlags_selfRefresh_eq h4 h5]

theorem flags_none_sync_state {f r : NetworkState} {a n : Nat} :
    ∀ x ∈ (sync_state f r a n).peers, x.updated = none := by
  intro x hx
  have hx2 : x ∈ clearFlags (phaseB r.sender a n (phaseA f.sender a n r.peers f.peers)) := hx
  rcases mem_clearFlags.mp hx2 with ⟨z, _, hzx⟩
  rw [hzx]
  rfl

theorem self_hb_sync_state {f r : NetworkState} {a n : Nat} :
    ∀ x ∈ (sync_state f r a n).peers, x.id = r.sender → x.heartbeat = n := by
  intro x hx hxid
  have hx2 : x ∈ clearFlags (phaseB r.sender a n (phaseA f.sender a n r.peers f.peers)) := hx
  rcases mem_clearFlags.mp hx2 with ⟨y, hy, hye⟩
  rcases mem_phaseB.mp hy with ⟨z, hz, hzy, _⟩
  by_cases hzs : z.id = r.sender
  · rw [hye, hzy, selfRefresh_of_eq hzs]
    rfl
  · rw [hye, hzy, selfRefresh_of_ne hzs] at hxid
    exact absurd hxid hzs

theorem alive_sync_state {f r : NetworkState} {a n : Nat}
    (hf : ∀ fi ∈ f.peers, n ≤ fi.heartbeat + a)
    (hl : ∀ x ∈ r.peers, n ≤ x.heartbeat + a) :
    ∀ x ∈ (sync_state f r a n).peers, n ≤ x.heartbeat + a := by
  intro x hx
  have hx2 : x ∈ clearFlags (phaseB r.sender a n (phaseA f.sender a n r.peers f.peers)) := hx
  rcases mem_clearFlags.mp hx2 with ⟨y, hy, hye⟩
  rcases mem_phaseB.mp hy with ⟨z, hz, hzy, _⟩
  have hzalive := alive_phaseA hf hl z hz
  by_cases hzs : z.id = r.sender
  · rw [hye, hzy, selfRefresh_of_eq hzs]
    show n ≤ n + a
    omega
  · rw [hye, hzy, selfRefresh_of_ne hzs]
    show n ≤ z.heartbeat + a
    exact hzalive

/-- After Phase A, each foreign entry's id is carried by exactly one entry
of the local list, and that entry is a fixpoint of the entry's matched
update. -/
theorem collect_p1_single {fs : String} {a n : Nat} {ps fis : List PeerState}
    {fi : PeerState}
    (hnd : (idsOf ps).Nodup) (hndf : (idsOf fis).Nodup) (hfi : fi ∈ fis)
    (hfa : ∀ fj ∈ fis, n ≤ fj.heartbeat + a)
    (hl : ∀ x ∈ ps, n ≤ x.heartbeat + a)
    (hffs : fi.id = fs → fi.heartbeat = n) :
    ∃ y, collect fi.id (phaseA fs a n ps fis) = [y] ∧
      updateMatched fs n fi y = y ∧ n ≤ y.heartbeat + a := by
  rcases List.append_of_mem hfi with ⟨pre, post, hsplit⟩
  subst hsplit
  have hids : idsOf (pre ++ fi :: post) = idsOf pre ++ fi.id :: idsOf post := by
    rw [idsOf_append]
    rfl
  have hndf2 := hids ▸ hndf
  have hprene : ∀ fj ∈ pre, ¬ fj.id = fi.id := by
    intro fj hfj he
    exact (List.nodup_append.mp hndf2).2.2 (mem_idsOf.mpr ⟨fj, hfj, he⟩)
      (List.mem_cons_self _ _)
  have hpostne : ∀ fj ∈ post, ¬ fj.id = fi.id := by
    intro fj hfj he
    exact (List.nodup_cons.mp (List.nodup_append.mp hndf2).2.1).1
      (mem_idsOf.mpr ⟨fj, hfj, he⟩)
  rw [phaseA_append]
  have hstep : phaseA fs a n (phaseA fs a n ps pre) (fi :: post) =
      phaseA fs a n (syncOneP fs a n (phaseA fs a n ps pre) fi) post := rfl
  rw [hstep, collect_phaseA_ne hpostne]
  have hnd1 : (idsOf (phaseA fs a n ps pre)).Nodup := idsOf_phaseA_nodup hnd
  have halive1 : ∀ x ∈ phaseA fs a n ps pre, n ≤ x.heartbeat + a :=
    alive_phaseA (fun z hz => hfa z (List.mem_append.mpr (Or.inl hz))) hl
  have hfialive : n ≤ fi.heartbeat + a :=
    hfa fi (List.mem_append.mpr (Or.inr (List.mem_cons_self _ _)))
  have hself := @collect_syncOneP_self fs a n (phaseA fs a n ps pre) fi
  cases hc : collect fi.id (phaseA fs a n ps pre) with
  | nil =>
    rw [hc] at hself
    by_cases hsid : fi.id = fs
    · rw [if_pos (beq_iff_eq.mpr hsid)] at hself
      refine ⟨{ fi with updated := some true }, hself,
        updateMatched_sender_clone_fix hsid (hffs hsid), ?_⟩
      show n ≤ fi.heartbeat + a
      exact hfialive
    · rw [if_neg (fun hb => hsid (beq_iff_eq.mp hb)), if_pos hfialive] at hself
      refine ⟨{ fi with version := 0, payload := none, updated := some true }, hself,
        updateMatched_reset_clone_fix hsid, ?_⟩
      show n ≤ fi.heartbeat + a
      exact hfialive
  | cons r rest =>
    have hrmem : r ∈ collect fi.id (phaseA fs a n ps pre) := by
      rw [hc]
      exact List.mem_cons_self _ _
    have hr := mem_collect.mp hrmem
    have hsing := collect_singleton_of_nodup hnd1 hr.1 hr.2
    rw [hc] at hsing
    have hrest : rest = [] := by
      injection hsing
    subst hrest
    rw [hc] at hself
    refine ⟨updateMatched fs n fi r, hself, updateMatched_idem fs n fi r, ?_⟩
    rcases updateMatched_heartbeat_cases fs n fi r with hcase | hcase | hcase <;> rw [hcase]
    · exact halive1 r hr.1
    · omega
    · exact hfialive

/-- After a full merge, each foreign entry's id is carried by exactly one
entry of the result, a fixpoint of the entry's matched update. -/
theorem collect_s1_stable
    (foreign recipient : NetworkState) (a n : Nat)
    (hndl : (idsOf recipient.peers).Nodup) (hndf : (idsOf foreign.peers).Nodup)
    (hfa : ∀ fj ∈ foreign.peers, n ≤ fj.heartbeat + a)
    (hfb : ∀ fj ∈ foreign.peers, fj.heartbeat ≤ n)
    (hfs : ∀ fj ∈ foreign.peers, fj.id = foreign.sender → fj.heartbeat = n)
    (hl : ∀ x ∈ recipient.peers, n ≤ x.heartbeat + a) :
    ∀ fi ∈ foreign.peers,
      ∃ z, collect fi.id (sync_state foreign recipient a n).peers = [z] ∧
        updateMatched foreign.sender n fi z = z := by
  intro fi hfi
  obtain ⟨y, hcy, hstab, hyalive⟩ :=
    collect_p1_single hndl hndf hfi hfa hl (hfs fi hfi)
  have hkeep : keepPeer a n (selfRefresh recipient.sender n y) = true := by
    by_cases hy : y.id = recipient.sender
    · rw [selfRefresh_of_eq hy]
      exact keepPeer_iff.mpr (Or.inl rfl)
    · rw [selfRefresh_of_ne hy]
      exact keepPeer_iff.mpr (Or.inr hyalive)
  have hres : (sync_state foreign recipient a n).peers =
      clearFlags (phaseB recipient.sender a n
        (phaseA foreign.sender a n recipient.peers foreign.peers)) := rfl
  refine ⟨clearFlag (selfRefresh recipient.sender n y), ?_, ?_⟩
  · rw [hres, collect_clearFlags, collect_phaseB, hcy, List.map_cons, List.map_nil,
        List.filter_cons_of_pos hkeep]
    rfl
  · exact stab_through_phaseBC hstab (hfb fi hfi)

/-- C7 amended: the merge is idempotent under the protocol's own operating
conditions — every foreign entry is fresh (heartbeat ≤ now) and alive
(heartbeat + alive_duration ≥ now), the foreign sender's own entry carries
heartbeat = now, every local entry is alive, and peer ids are unique in
both inputs.  As stated over all inputs the claim fails (see the
counterexample: a newly inserted foreign-sender clone keeps its shipped
heartbeat, which the second merge then overwrites with `now`; an entry
adopted with a stale heartbeat, or evicted then re-inserted, also changes
across the second call). -/
theorem sync_state_idempotent
    (foreign recipient : NetworkState) (a n : Nat)
    (hndl : (idsOf recipient.peers).Nodup) (hndf : (idsOf foreign.peers).Nodup)
    (hf : ∀ fi ∈ foreign.peers, fi.heartbeat ≤ n ∧ n ≤ fi.heartbeat + a)
    (hfs : ∀ fi ∈ foreign.peers, fi.id = foreign.sender → fi.heartbeat = n)
    (hl : ∀ x ∈ recipient.peers, n ≤ x.heartbeat + a) :
    sync_state foreign (sync_state foreign recipient a n) a n =
      sync_state foreign recipient a n := by
  have hfa : ∀ fj ∈ foreign.peers, n ≤ fj.heartbeat + a := fun fj h => (hf fj h).2
  have hfb : ∀ fj ∈ foreign.peers, fj.heartbeat ≤ n := fun fj h => (hf fj h).1
  have hstable := collect_s1_stable foreign recipient a n hndl hndf hfa hfb hfs hl
  apply sync_state_fix
  · intro fi hfi
    obtain ⟨z, hz, hzstab⟩ := hstable fi hfi
    constructor
    · rw [hz]
      exact List.cons_ne_nil z []
    · intro x hx hxid
      have hxc : x ∈ collect fi.id (sync_state foreign recipient a n).peers :=
        mem_collect.mpr ⟨hx, hxid⟩
      rw [hz] at hxc
      have hxz : x = z := by simpa using hxc
      rw [hxz]
      exact hzstab
  · exact alive_sync_state hfa hl
  · exact self_hb_sync_state
  · exact flags_none_sync_state

/-- Witness for the amended C7 at a concrete input satisfying the
operating conditions. -/
theorem sync_state_idempotent_witness :
    sync_state ⟨"s", [⟨"s", 1, 5, none, none⟩]⟩
      (sync_state ⟨"s", [⟨"s", 1, 5, none, none⟩]⟩
        ⟨"r", [⟨"r", 0, 5, none, none⟩]⟩ 2 5)
      2 5 =
    sync_state ⟨"s", [⟨"s", 1, 5, none, none⟩]⟩
      ⟨"r", [⟨"r", 0, 5, none, none⟩]⟩ 2 5 :=
  sync_state_idempotent ⟨"s", [⟨"s", 1, 5, none, none⟩]⟩
    ⟨"r", [⟨"r", 0, 5, none, none⟩]⟩ 2 5
    (by decide) (by decide) (by decide) (by decide) (by decide)

end RustyGossip
